import Mathlib

/-!
Verification of the twins scenario generator (package `twins` of this
repository).  The Go source is shallowly embedded: every function below is a
direct translation of the corresponding Go function; machine integers are
modelled as `Nat` with an explicit `% 256` wherever the Go code performs
`uint8` arithmetic, and partial operations (out-of-range slice indexing,
writes to a nil map, `rand.Intn(0)`) are modelled by `Option`, `none`
standing for a Go runtime panic.
-/

set_option maxHeartbeats 1000000

/-- A node identifier: a replica identity plus a network identity.
Modelled from the spec: the NodeID type itself is declared outside the
files available here; the spec describes it as the pair
`(ReplicaId, NetworkId)` of positive integers. -/
structure NodeID where
  ReplicaID : Nat
  NetworkID : Nat
deriving DecidableEq, Repr, Inhabited

/-- A set of node ids.  Modelled from the spec: `NodeSet` is declared outside
the files available here; the spec describes it as a set of NodeIds.  It is
modelled as a duplicate-free list: `add` is a no-op on a member, mirroring
insertion into a Go map. -/
abbrev NodeSet := List NodeID

/-- Insertion into a NodeSet (Go map insert: adding a present key changes
nothing). -/
def NodeSet.add (s : NodeSet) (x : NodeID) : NodeSet :=
  if x ∈ s then s else s ++ [x]

/-- A pair of partition numbers for the two twins of one replica
(`type twinAssignment [2]uint8`). -/
abbrev twinAssignment := Nat × Nat

/-- One view spec: a leader plus a partition scenario.  Modelled from the
spec: the View type is declared outside the files available here; per the
spec it is `(leader: ReplicaId, partitions: PartitionScenario)`.  A partition
slot is `Option NodeSet`: `none` is a nil (never-made) map, `some` a made
one. -/
structure View where
  Leader : Nat
  PartitionScenario : List (Option NodeSet)
deriving DecidableEq, Repr, Inhabited

/-- A full scenario: the global roster and one view per round.  Modelled from
the spec: the Scenario type is declared outside the files available here;
per the spec it is `(nodes: [NodeId], views: [ViewSpec; rounds])`. -/
structure Scenario where
  Nodes : List NodeID
  Views : List View
deriving DecidableEq, Repr, Inhabited

/-- The generator state (struct `Generator`). -/
structure Generator where
  allNodes : List NodeID
  rounds : Nat
  partitions : Nat
  indices : List Nat
  offsets : List Nat
  leadersPartitions : List View
deriving DecidableEq, Repr, Inhabited

/-- Wrap-around subtraction of two `uint8` values (operands already reduced
or reduced here mod 256). -/
def u8sub (a b : Nat) : Nat := (a % 256 + 256 - b % 256) % 256

/-- The descending list `[hi, hi-1, ..., lo]` (empty when `lo > hi`): the
sequence of values taken by the `for ; cond; m--` loop of
`genPartitionSizesRecursive`. -/
def descList (hi lo : Nat) : List Nat :=
  (List.range (hi + 1 - lo)).map (fun d => hi - d)

/-- Recursion core of `genPartitionSizesRecursive`.  The extra first
argument `left` is the number of positions from `i` to the end of the state
buffer (`state.length - i`), kept in lockstep by the wrapper below so that
the recursion is structural; the Go guard `int(i+1) < len(s)` is exactly
`2 ≤ left`.  The Go loop
`for ; (i == 0 && m >= minSize) || (i != 0 && m > 0); m--` runs `m` from its
start value down to `minSize` (when `i = 0`) or down to `1` (otherwise);
`descList` materialises exactly that sequence.  (For `minSize = 0` the Go
loop would wrap around at `m = 0` and never terminate; every call in this
repository has `minSize = 1`.)  `state.set i n` models `s[i] = n`; the
caller guarantees `i < state.length`, as in the Go code, where the only
out-of-range call would be `genPartitionSizes` with `k = 0`, which is
rejected there. -/
def gpsAux : Nat → Nat → Nat → Nat → List Nat → List (List Nat)
  | left, i, n, minSize, state =>
    let s := state.set i n
    let emitted : List (List Nat) :=
      if i = 0 ∨ n ≤ s.getD (i - 1) 0 then [s] else []
    let m1 : Nat :=
      if 0 < i then min (u8sub n 1) (s.getD (i - 1) 0) else u8sub n 1
    let lo : Nat := if i = 0 then minSize else 1
    match left with
    | l + 2 =>
      emitted ++ (descList m1 lo).flatMap
        (fun m => gpsAux (l + 1) (i + 1) (u8sub n m) minSize (s.set i m))
    | _ => emitted

/-- Direct translation of `genPartitionSizesRecursive` (see `gpsAux`). -/
def genPartitionSizesRecursive (i n minSize : Nat) (state : List Nat) :
    List (List Nat) :=
  gpsAux (state.length - i) i n minSize state

/-- Translation of `genPartitionSizes`.  With `k = 0` the Go code panics on
`s[0]` inside the first recursive call (`none`). -/
def genPartitionSizes (n k minSize : Nat) : Option (List (List Nat)) :=
  if k = 0 then none
  else some (genPartitionSizesRecursive 0 n minSize (List.replicate k 0))

/-- Translation of `generateTwinPartitionPairs`: all pairs `(i, j)` with
`0 ≤ i ≤ j < n`, `i` outer and ascending, `j` inner and ascending. -/
def generateTwinPartitionPairs (n : Nat) : List twinAssignment :=
  (List.range n).flatMap (fun i => (List.range (n - i)).map (fun d => (i, i + d)))

/-- Loop body of `isValidTwinAssignment`: walk the assignments, decrementing
a copy of the capacities; reject an out-of-range partition number or an
exhausted capacity. -/
def validGo : List twinAssignment → List Nat → Bool
  | [], _ => true
  | (a, b) :: rest, ps =>
    match ps.get? a with
    | none => false
    | some 0 => false
    | some (va + 1) =>
      let ps1 := ps.set a va
      match ps1.get? b with
      | none => false
      | some 0 => false
      | some (vb + 1) => validGo rest (ps1.set b vb)

/-- Translation of `isValidTwinAssignment`. -/
def isValidTwinAssignment (twinAssignments : List twinAssignment)
    (partitionSizes : List Nat) : Bool :=
  validGo twinAssignments partitionSizes

/-- Translation of `cartesianProduct`. -/
def cartesianProduct : List (List twinAssignment) → List (List twinAssignment)
  | [] => [[]]
  | l :: rest =>
    let r := cartesianProduct rest
    l.flatMap (fun v => r.map (fun p => v :: p))

/-- Contents of a partition slot (`len` and iteration over a nil map see an
empty collection). -/
def slotList (o : Option NodeSet) : List NodeID := o.getD []

/-- Length of a partition slot as Go's `len` sees it. -/
def slotLen (parts : List (Option NodeSet)) (p : Nat) : Nat :=
  (slotList ((parts.get? p).getD none)).length

/-- The `partitions := make([]NodeSet, k)` plus
`if sizes[i][k] > 0 { partitions[k] = make(NodeSet) }` initialisation:
a slot is a made (empty) map exactly when its declared size is positive. -/
def initParts (sz : List Nat) : List (Option NodeSet) :=
  sz.map (fun s => if 0 < s then some [] else none)

/-- `partitions[p].Add(x)`: `none` on an out-of-range index or on a write to
a nil map (both Go panics). -/
def addToSlot (parts : List (Option NodeSet)) (p : Nat) (x : NodeID) :
    Option (List (Option NodeSet)) :=
  match parts.get? p with
  | none => none
  | some none => none
  | some (some s) => some (parts.set p (some (s.add x)))

/-- The twin-placement loop of `genPartitionScenarios`: for each assignment
pair place the next two twins (in global twin order) into the named
partitions. -/
def placeTwins : List twinAssignment → List NodeID → Nat →
    List (Option NodeSet) → Option (List (Option NodeSet) × Nat)
  | [], _, twin, parts => some (parts, twin)
  | (a, b) :: rest, twins, twin, parts =>
    match twins.get? twin with
    | none => none
    | some x =>
      match addToSlot parts a x with
      | none => none
      | some parts1 =>
        match twins.get? (twin + 1) with
        | none => none
        | some y =>
          match addToSlot parts1 b y with
          | none => none
          | some parts2 => placeTwins rest twins (twin + 2) parts2

/-- The inner fill loop
`for sizes[i][k]-uint8(len(partitions[k])) > 0 { partitions[k].Add(nodes[node]); node++ }`.
The loop condition is `uint8` subtraction; `node` strictly increases every
iteration, so in Go the loop always either reaches the condition or panics
on `nodes[node]` — modelled by recursion on the remaining node suffix. -/
def fillSlotAux (szp : Nat) : List (Option NodeSet) → Nat → List NodeID →
    Nat → Option (List (Option NodeSet) × Nat)
  | parts, p, rest, node =>
    if u8sub szp (slotLen parts p) = 0 then some (parts, node)
    else
      match rest with
      | [] => none
      | x :: rest1 =>
        match addToSlot parts p x with
        | none => none
        | some parts1 => fillSlotAux szp parts1 p rest1 (node + 1)

/-- Entry to the fill loop at cursor `node`: the unread part of `nodes` is
its suffix from `node`, so `nodes[node]` is the head of that suffix. -/
def fillSlot (szp : Nat) (parts : List (Option NodeSet)) (p : Nat)
    (nodes : List NodeID) (node : Nat) : Option (List (Option NodeSet) × Nat) :=
  fillSlotAux szp parts p (nodes.drop node) node

/-- The outer fill loop `for k := range partitions { ... }`, which walks the
slots in order sharing one node cursor.  The ranged slice `partitions` and
the size vector have the same length `k`, so iterating the size vector with
a running position is the same walk. -/
def fillAllAux : List Nat → Nat → List (Option NodeSet) → List NodeID →
    Nat → Option (List (Option NodeSet) × Nat)
  | [], _, parts, _, node => some (parts, node)
  | szp :: rest, p, parts, nodes, node =>
    match fillSlot szp parts p nodes node with
    | none => none
    | some (parts1, node1) => fillAllAux rest (p + 1) parts1 nodes node1

/-- One iteration of the double loop body of `genPartitionScenarios`: build
the concrete partitions for one size vector and one (already validated) twin
assignment. -/
def buildPartitions (sz : List Nat) (ta : List twinAssignment)
    (twins nodes : List NodeID) : Option (List (Option NodeSet)) :=
  match placeTwins ta twins 0 (initParts sz) with
  | none => none
  | some (parts1, _) =>
    match fillAllAux sz 0 parts1 nodes 0 with
    | none => none
    | some (parts2, _) => some parts2

/-- The inner loop over twin assignments for one fixed size vector. -/
def buildRow (sz : List Nat) : List (List twinAssignment) → List NodeID →
    List NodeID → Option (List (List (Option NodeSet)))
  | [], _, _ => some []
  | ta :: rest, twins, nodes =>
    if isValidTwinAssignment ta sz then
      match buildPartitions sz ta twins nodes with
      | none => none
      | some parts =>
        match buildRow sz rest twins nodes with
        | none => none
        | some r => some (parts :: r)
    else buildRow sz rest twins nodes

/-- The outer loop over size vectors. -/
def buildRows : List (List Nat) → List (List twinAssignment) → List NodeID →
    List NodeID → Option (List (List (Option NodeSet)))
  | [], _, _, _ => some []
  | sz :: rest, tas, twins, nodes =>
    match buildRow sz tas twins nodes with
    | none => none
    | some row =>
      match buildRows rest tas twins nodes with
      | none => none
      | some r => some (row ++ r)

/-- Translation of `genPartitionScenarios`.  Note the guard
`len(twins)/2 > 0`: with no twins the assignment list stays nil, so the
inner loop never runs and no partition scenarios are produced. -/
def genPartitionScenarios (twins nodes : List NodeID) (k min : Nat) :
    Option (List (List (Option NodeSet))) :=
  let twinAssignments : List (List twinAssignment) :=
    if 0 < twins.length / 2 then
      cartesianProduct
        (List.replicate (twins.length / 2) (generateTwinPartitionPairs k))
    else []
  match genPartitionSizes ((twins.length + nodes.length) % 256) k min with
  | none => none
  | some sizes => buildRows sizes twinAssignments twins nodes

/-- The id-assignment loop of `NewGenerator`: `count` remaining iterations,
current replica id, current network id, remaining twins.  Returns the twin
roster, the plain-node roster and the replica-id list, in emission order. -/
def assignIDs : Nat → Nat → Nat → Nat → List NodeID × List NodeID × List Nat
  | 0, _, _, _ => ([], [], [])
  | c + 1, rid, nid, rt =>
    if 0 < rt then
      let r := assignIDs c (rid + 1) (nid + 2) (rt - 1)
      (⟨rid, nid⟩ :: ⟨rid, nid + 1⟩ :: r.1, r.2.1, rid :: r.2.2)
    else
      let r := assignIDs c (rid + 1) (nid + 1) rt
      (r.1, ⟨rid, nid⟩ :: r.2.1, rid :: r.2.2)

/-- Translation of `NewGenerator`.  All four parameters are `uint8` in Go,
so callers can only pass values below 256; `none` models a panic during
construction (the only ones are inside `genPartitionScenarios`). -/
def NewGenerator (replicas numTwins partitions rounds : Nat) :
    Option Generator :=
  let r := assignIDs replicas 1 1 numTwins
  let twins := r.1
  let nodes := r.2.1
  let replicaIDs := r.2.2
  match genPartitionScenarios twins nodes partitions 1 with
  | none => none
  | some partitionScenarios =>
    some
      { allNodes := twins ++ nodes
        rounds := rounds
        partitions := partitions
        indices := List.replicate rounds 0
        offsets := List.replicate rounds 0
        leadersPartitions :=
          partitionScenarios.flatMap
            (fun p => replicaIDs.map (fun id => View.mk id p)) }

/-- Modelled from the spec: the seeded pseudo-random source driving
`Shuffle` (Go's `math/rand`, which is outside the files available here).
The spec fixes only that the source is deterministic per seed and that the
`k`-th draw is taken uniformly below its bound `n`; any concrete
deterministic choice realises that contract. -/
def randIntn (seed : Int) (k n : Nat) : Nat := (seed.natAbs + k) % n

/-- Swap the entries at positions `i` and `j` of a list (Go slice swap). -/
def swapL (l : List View) (i j : Nat) : List View :=
  match l.get? i, l.get? j with
  | some vi, some vj => (l.set i vj).set j vi
  | _, _ => l

/-- The Fisher–Yates loop of Go's `rand.Shuffle`: for `i` from `n-1` down to
`1`, draw `j` uniformly below `i+1` and swap positions `i` and `j`.  The
second component counts the draws consumed. -/
def fyLoop (seed : Int) : List View → Nat → Nat → List View × Nat
  | l, 0, k => (l, k)
  | l, i + 1, k => fyLoop seed (swapL l (i + 1) (randIntn seed k (i + 2))) i (k + 1)

/-- Translation of `Generator.Shuffle`: permute `leadersPartitions` with a
seeded Fisher–Yates shuffle, then draw one offset per round below
`len(leadersPartitions)`.  With an empty list and at least one round,
`rand.Intn(0)` panics (`none`). -/
def Shuffle (g : Generator) (seed : Int) : Option Generator :=
  let n := g.leadersPartitions.length
  let fy := fyLoop seed g.leadersPartitions (n - 1) 0
  if n = 0 ∧ 0 < g.offsets.length then none
  else
    some
      { g with
        leadersPartitions := fy.1
        offsets := (List.range g.offsets.length).map (fun i => randIntn seed (fy.2 + i) n) }

/-- The view-building loop of `NextScenario`: walk `indices` with position
`i`, add the offset, wrap once past `len(leadersPartitions)`, and write the
selected view into slot `i` of `p`.  `none` models the possible panics
(offset read, view read past the end after a single wrap, write past
`len(p)`). -/
def buildViewsAux (p : List View) (i : Nat) : List Nat → List Nat →
    List View → Option (List View)
  | [], _, _ => some p
  | ii :: rest, offsets, lp =>
    match offsets.get? i with
    | none => none
    | some off =>
      let index0 := ii + off
      let index := if lp.length ≤ index0 then index0 - lp.length else index0
      match lp.get? index with
      | none => none
      | some v =>
        if i < p.length then buildViewsAux (p.set i v) (i + 1) rest offsets lp
        else none

/-- The whole `p := make([]View, g.rounds); for i, ii := range g.indices ...`
block. -/
def buildViews (rounds : Nat) (indices offsets : List Nat) (lp : List View) :
    Option (List View) :=
  buildViewsAux (List.replicate rounds default) 0 indices offsets lp

/-- Outcome of the odometer loop: a new index vector, or exhaustion. -/
inductive OdoResult where
  | ok (indices : List Nat)
  | exhausted
deriving DecidableEq, Repr

/-- The odometer loop of `NextScenario`, entered at position
`i = rounds - 1`: increment `indices[i]`; below the base, stop; otherwise
zero it and carry; a carry past position 0 is exhaustion (`indices` is then
truncated by the caller).  Reading past `len(indices)` is a panic
(`none`) — this happens on the call after exhaustion. -/
def odoLoop (base : Nat) : List Nat → Nat → Option OdoResult
  | idx, 0 =>
    match idx.get? 0 with
    | none => none
    | some v =>
      if v + 1 < base then some (OdoResult.ok (idx.set 0 (v + 1)))
      else some OdoResult.exhausted
  | idx, i + 1 =>
    match idx.get? (i + 1) with
    | none => none
    | some v =>
      if v + 1 < base then some (OdoResult.ok (idx.set (i + 1) (v + 1)))
      else odoLoop base (idx.set (i + 1) 0) i

/-- Translation of `Generator.NextScenario`.  The views are built first
(so their panics fire first), then the odometer advances; on exhaustion the
zero value of `Scenario` is returned together with `ok = false` and the
truncated index vector. -/
def NextScenario (g : Generator) : Option (Scenario × Bool × Generator) :=
  match buildViews g.rounds g.indices g.offsets g.leadersPartitions with
  | none => none
  | some p =>
    if g.rounds = 0 then some (⟨g.allNodes, p⟩, true, g)
    else
      match odoLoop g.leadersPartitions.length g.indices (g.rounds - 1) with
      | none => none
      | some OdoResult.exhausted =>
        some (⟨[], []⟩, false, { g with indices := [] })
      | some (OdoResult.ok idx1) =>
        some (⟨g.allNodes, p⟩, true, { g with indices := idx1 })

/-- Number of scenarios returned with `ok = true` before the first
`ok = false`, within `fuel` calls; `none` when the fuel runs out or a call
panics first. -/
def drainCount : Nat → Generator → Option Nat
  | 0, _ => none
  | fuel + 1, g =>
    match NextScenario g with
    | none => none
    | some (_, false, _) => some 0
    | some (_, true, g1) => (drainCount fuel g1).map (· + 1)

/-- The scenarios returned with `ok = true` within `fuel` calls, stopping at
the first `ok = false` or panic. -/
def emitAll : Nat → Generator → List Scenario
  | 0, _ => []
  | fuel + 1, g =>
    match NextScenario g with
    | some (s, true, g1) => s :: emitAll fuel g1
    | _ => []

/-- Big-endian odometer increment over base `base`: increment the last
digit, carrying leftward; `none` when the all-max vector overflows.  This is
the mathematical specification the odometer loop is proved against. -/
def incBE (base : Nat) : List Nat → Option (List Nat)
  | [] => none
  | [d] => if d + 1 < base then some [d + 1] else none
  | d :: rest =>
    match incBE base rest with
    | some r1 => some (d :: r1)
    | none =>
      if d + 1 < base then some ((d + 1) :: List.replicate rest.length 0)
      else none

/-- Big-endian value of a digit vector in base `base`. -/
def valBE (base : Nat) (ds : List Nat) : Nat :=
  ds.foldl (fun a d => a * base + d) 0

/-- Closed form of a run of twin pairs starting at replica id `rid` and
network id `nid`: pair `i` (0-based) is `(rid+i, nid+2i)` and
`(rid+i, nid+2i+1)`. -/
def twinsFrom : Nat → Nat → Nat → List NodeID
  | _, _, 0 => []
  | rid, nid, t + 1 =>
    ⟨rid, nid⟩ :: ⟨rid, nid + 1⟩ :: twinsFrom (rid + 1) (nid + 2) t

/-- Closed form of a run of plain nodes starting at replica id `rid` and
network id `nid`: node `j` (0-based) is `(rid+j, nid+j)`. -/
def plainFrom : Nat → Nat → Nat → List NodeID
  | _, _, 0 => []
  | rid, nid, c + 1 => ⟨rid, nid⟩ :: plainFrom (rid + 1) (nid + 1) c

/-- Closed form of the twinned part of the roster: pair `i` (0-based) is
`(ReplicaId i+1, NetworkId 2i+1)` and `(ReplicaId i+1, NetworkId 2i+2)`. -/
def twinsRoster (t : Nat) : List NodeID := twinsFrom 1 1 t

/-- Closed form of the non-twinned part of the roster: node `j` (0-based) is
`(ReplicaId t+j+1, NetworkId 2t+j+1)`. -/
def plainRoster (t r : Nat) : List NodeID := plainFrom (t + 1) (2 * t + 1) (r - t)

/-- Number of placements the assignment tuple makes into partition `p`
(each pair contributes its two components). -/
def countPlaced (ta : List twinAssignment) (p : Nat) : Nat :=
  ta.foldl
    (fun acc ab =>
      acc + (if ab.1 = p then 1 else 0) + (if ab.2 = p then 1 else 0)) 0

/-- All members of all slots of a partition scenario, in slot order. -/
def partsJoin (parts : List (Option NodeSet)) : List NodeID :=
  (parts.map slotList).flatten

/-- A partition scenario partitions a roster: its members, read off slot by
slot, are a permutation of the roster. -/
def IsPartitionOf (parts : List (Option NodeSet)) (roster : List NodeID) : Prop :=
  (partsJoin parts).Perm roster

/-- Total number of nodes the fill loop still has to place, walking the size
vector from slot `p`: the per-slot shortfall `sz[j] - len(partitions[j])`
summed over the remaining slots (proof-side accounting for the fill loop). -/
def needSum : List Nat → List (Option NodeSet) → Nat → Nat
  | [], _, _ => 0
  | s :: rest, parts, p => (s - slotLen parts p) + needSum rest parts (p + 1)

/-! ### Basic helper lemmas -/

theorem assignIDs_no_twins (c rid nid : Nat) : (assignIDs c rid nid 0).1 = [] := by
  induction c generalizing rid nid with
  | zero => rfl
  | succ c ih => simp [assignIDs, ih]

theorem buildRows_nil_tas (sizes : List (List Nat)) (twins nodes : List NodeID) :
    buildRows sizes [] twins nodes = some [] := by
  induction sizes with
  | nil => rfl
  | cons sz rest ih => simp [buildRows, buildRow, ih]

theorem genPartitionScenarios_no_twins (nodes : List NodeID) (k min : Nat)
    (hk : k ≠ 0) : genPartitionScenarios [] nodes k min = some [] := by
  unfold genPartitionScenarios genPartitionSizes
  simp [hk, buildRows_nil_tas]

theorem genPartitionScenarios_k0 (twins nodes : List NodeID) (min : Nat) :
    genPartitionScenarios twins nodes 0 min = none := by
  unfold genPartitionScenarios genPartitionSizes
  simp

theorem nextScenario_empty_lp (g : Generator) (hlp : g.leadersPartitions = [])
    (a : Nat) (l : List Nat) (hidx : g.indices = a :: l) : NextScenario g = none := by
  unfold NextScenario buildViews
  rw [hidx, hlp]
  unfold buildViewsAux
  cases h : g.offsets.get? 0 <;> simp [h, List.get?]

theorem swapL_length (l : List View) (i j : Nat) :
    (swapL l i j).length = l.length := by
  unfold swapL
  cases h1 : l.get? i <;> cases h2 : l.get? j <;> simp

theorem fyLoop_fst_length (seed : Int) (l : List View) (i k : Nat) :
    (fyLoop seed l i k).1.length = l.length := by
  induction i generalizing l k with
  | zero => rfl
  | succ i ih => rw [fyLoop, ih, swapL_length]

theorem fyLoop_snd (seed : Int) (l : List View) (i k : Nat) :
    (fyLoop seed l i k).2 = k + i := by
  induction i generalizing l k with
  | zero => rfl
  | succ i ih => rw [fyLoop, ih]; omega

/-! ### Claims C2, C3, C4 and C6 -/

/-- C2, amended: with `numTwins = 0` the guard `len(twins)/2 > 0` in
`genPartitionScenarios` skips the twin-assignment enumeration, so the
assignment list is empty (not the single empty tuple — that convention lives
only inside `cartesianProduct` itself) and no partition scenario is ever
built: every successful construction with zero twins has an empty
`leadersPartitions` list, and with at least one round the first call to
`NextScenario` panics indexing that empty list.  In particular the spec's
example C (replicas 3, twins 0, partitions 2, rounds 2) yields 0 rather than
36 scenarios. -/
theorem c2_no_twins_no_scenarios (r k rd : Nat) (g : Generator)
    (hg : NewGenerator r 0 k rd = some g) :
    cartesianProduct [] = [[]] ∧ g.leadersPartitions = [] ∧
      (1 ≤ rd → NextScenario g = none) := by
  refine ⟨rfl, ?_⟩
  rcases Nat.eq_zero_or_pos k with hk | hk
  · subst hk
    unfold NewGenerator at hg
    simp only [] at hg
    rw [genPartitionScenarios_k0] at hg
    exact absurd hg (by simp)
  · unfold NewGenerator at hg
    simp only [] at hg
    rw [assignIDs_no_twins, genPartitionScenarios_no_twins _ _ _ (by omega)] at hg
    obtain rfl := (Option.some_inj.mp hg).symm
    refine ⟨by simp, ?_⟩
    intro hrd
    obtain ⟨m, rfl⟩ : ∃ m, rd = m + 1 := ⟨rd - 1, by omega⟩
    exact nextScenario_empty_lp _ (by simp) 0 (List.replicate m 0)
      (by simp [List.replicate_succ])

/-- C2, counterexample to the claim as stated: at replicas 3, twins 0,
partitions 2, rounds 2 the generator has an empty view-spec list (so
`|LP| = 0`, not 6) and the first `NextScenario` call panics instead of
producing 36 scenarios. -/
theorem c2_counterexample :
    (NewGenerator 3 0 2 2).map (fun g => g.leadersPartitions.length) = some 0 ∧
      (NewGenerator 3 0 2 2).bind (fun g => NextScenario g) = none := by
  decide

/-- C2, witness for the amended theorem at the spec's example C. -/
theorem c2_witness :
    cartesianProduct [] = [[]] ∧
      ((NewGenerator 3 0 2 2).getD default).leadersPartitions = [] ∧
      (1 ≤ 2 → NextScenario ((NewGenerator 3 0 2 2).getD default) = none) :=
  c2_no_twins_no_scenarios 3 2 2 ((NewGenerator 3 0 2 2).getD default) (by decide)

/-- C3, amended: after exhaustion the Go code has truncated `indices` to
length 0 while `rounds` is still positive, so the next call to
`NextScenario` panics (index out of range inside the odometer loop) instead
of re-emitting the all-zero-indices scenario. -/
theorem odoLoop_nil (base i : Nat) : odoLoop base [] i = none := by
  cases i <;> simp [odoLoop, List.get?]

theorem c3_after_exhaustion_panics (g : Generator) (h1 : 1 ≤ g.rounds)
    (h2 : g.indices = []) : NextScenario g = none := by
  simp only [NextScenario, buildViews, h2, buildViewsAux]
  rw [if_neg (by omega)]
  rw [odoLoop_nil]

/-- C3, counterexample to the claim as stated: for the generator built from
(1, 1, 1, 1) the first call reports exhaustion and the second call panics
(`none`) rather than re-emitting the all-zero scenario. -/
theorem c3_counterexample :
    ((NewGenerator 1 1 1 1).bind (fun g => (NextScenario g).map (fun x => x.2.1)))
        = some false ∧
      ((NewGenerator 1 1 1 1).bind
        (fun g => (NextScenario g).bind (fun x => NextScenario x.2.2))) = none := by
  decide

/-- C3, witness for the amended theorem. -/
theorem c3_witness :
    NextScenario
        { allNodes := [], rounds := 1, partitions := 1, indices := [],
          offsets := [0], leadersPartitions := [] } = none :=
  c3_after_exhaustion_panics _ (by decide) rfl

/-- C4, amended: with `rounds = 0` construction succeeds but the odometer
loop body never runs, so every call to `NextScenario` returns `ok = true`
with an empty view list and unchanged state — the iterator never reports
exhaustion (the claim said the first call reports exhaustion). -/
theorem c4_rounds_zero_never_exhausts (g : Generator) (h0 : g.rounds = 0)
    (h1 : g.indices = []) :
    NextScenario g = some (⟨g.allNodes, []⟩, true, g) := by
  simp only [NextScenario, buildViews, h0, h1, buildViewsAux, List.replicate]
  simp

/-- C4, counterexample to the claim as stated: at (1, 1, 1, 0) the very
first call to `NextScenario` returns `ok = true`, not exhaustion. -/
theorem c4_counterexample :
    (NewGenerator 1 1 1 0).bind (fun g => (NextScenario g).map (fun x => x.2.1))
      = some true := by
  decide

/-- C4, witness for the amended theorem. -/
theorem c4_witness :
    NextScenario
        { allNodes := [⟨1, 1⟩], rounds := 0, partitions := 1, indices := [],
          offsets := [], leadersPartitions := [] } =
      some (⟨[⟨1, 1⟩], []⟩, true,
        { allNodes := [⟨1, 1⟩], rounds := 0, partitions := 1, indices := [],
          offsets := [], leadersPartitions := [] }) :=
  c4_rounds_zero_never_exhausts _ rfl rfl

/-- C6, amended: Shuffle is deterministic per seed and recomputes the same
offsets when repeated (the per-round offsets are idempotent), but it
permutes the already-permuted view-spec list again, so a second
`Shuffle(seed)` generally moves `leadersPartitions` once more and the whole
operation is not idempotent per seed. -/
theorem c6_shuffle_offsets_stable (g g1 g2 : Generator) (s : Int)
    (h1 : Shuffle g s = some g1) (h2 : Shuffle g1 s = some g2) :
    g2.offsets = g1.offsets := by
  unfold Shuffle at h1 h2
  simp only [] at h1 h2
  split at h1
  · exact absurd h1 (by simp)
  · obtain rfl := (Option.some_inj.mp h1).symm
    split at h2
    · exact absurd h2 (by simp)
    · obtain rfl := (Option.some_inj.mp h2).symm
      simp [fyLoop_fst_length, fyLoop_snd]

/-- C6, counterexample to the claim as stated: on the generator built from
(2, 1, 1, 1), applying Shuffle with seed 0 twice yields a different state
(the view-spec list is permuted twice) than applying it once. -/
theorem c6_counterexample :
    ((NewGenerator 2 1 1 1).bind (fun g => (Shuffle g 0).bind (fun g1 => Shuffle g1 0)))
      ≠ (NewGenerator 2 1 1 1).bind (fun g => Shuffle g 0) := by
  decide

/-- C6, witness for the amended theorem. -/
theorem c6_witness :
    ((Shuffle ((Shuffle ((NewGenerator 2 1 1 1).getD default) 0).getD default) 0).getD
          default).offsets =
      ((Shuffle ((NewGenerator 2 1 1 1).getD default) 0).getD default).offsets :=
  c6_shuffle_offsets_stable ((NewGenerator 2 1 1 1).getD default)
    ((Shuffle ((NewGenerator 2 1 1 1).getD default) 0).getD default)
    ((Shuffle ((Shuffle ((NewGenerator 2 1 1 1).getD default) 0).getD default) 0).getD
      default) 0 (by decide) (by decide)

/-- C5, counterexample to the claim as stated: `NewGenerator` performs no
validation, so construction with `numTwins = 2 > 1 = replicas` succeeds and
returns a generator (with a roster of `2 * replicas` twinned nodes). -/
theorem c5_counterexample :
    (NewGenerator 1 2 1 1).isSome = true ∧
      (NewGenerator 1 2 1 1).map (fun g => g.allNodes.length) = some 2 := by
  decide

/-! ### Claim C10: the roster closed form -/

theorem assignIDs_closed (c rid nid rt : Nat) :
    assignIDs c rid nid rt =
      (twinsFrom rid nid (min rt c),
        plainFrom (rid + min rt c) (nid + 2 * min rt c) (c - min rt c),
        List.range' rid c) := by
  induction c generalizing rid nid rt with
  | zero => simp [assignIDs, twinsFrom, plainFrom, List.range']
  | succ c ih =>
    rcases Nat.eq_zero_or_pos rt with h0 | h0
    · subst h0
      simp only [assignIDs, Nat.lt_irrefl, if_false, ih]
      have hm : min 0 c = 0 := by omega
      have hm1 : min 0 (c + 1) = 0 := by omega
      rw [hm, hm1]
      simp [twinsFrom, plainFrom, List.range']
    · obtain ⟨rt1, rfl⟩ : ∃ m, rt = m + 1 := ⟨rt - 1, by omega⟩
      simp only [assignIDs, if_pos (Nat.succ_pos rt1), ih, Nat.add_sub_cancel]
      have hm : min (rt1 + 1) (c + 1) = min rt1 c + 1 := by omega
      rw [hm]
      refine congrArg₂ Prod.mk ?_ (congrArg₂ Prod.mk ?_ ?_)
      · rw [twinsFrom]
      · have e1 : rid + (min rt1 c + 1) = rid + 1 + min rt1 c := by omega
        have e2 : nid + 2 * (min rt1 c + 1) = nid + 2 + 2 * min rt1 c := by omega
        have e3 : c + 1 - (min rt1 c + 1) = c - min rt1 c := by omega
        rw [e1, e2, e3]
      · rfl

theorem twinsFrom_length (rid nid t : Nat) :
    (twinsFrom rid nid t).length = 2 * t := by
  induction t generalizing rid nid with
  | zero => rfl
  | succ t ih => rw [twinsFrom]; simp [ih]; omega

theorem plainFrom_length (rid nid c : Nat) :
    (plainFrom rid nid c).length = c := by
  induction c generalizing rid nid with
  | zero => rfl
  | succ c ih => rw [plainFrom]; simp [ih]

theorem twinsFrom_map_net (rid nid t : Nat) :
    (twinsFrom rid nid t).map NodeID.NetworkID = List.range' nid (2 * t) := by
  induction t generalizing rid nid with
  | zero => rfl
  | succ t ih =>
    rw [twinsFrom]
    have h2 : 2 * (t + 1) = 2 * t + 1 + 1 := by omega
    rw [h2]
    simp only [List.map_cons, List.range', ih]

theorem plainFrom_map_net (rid nid c : Nat) :
    (plainFrom rid nid c).map NodeID.NetworkID = List.range' nid c := by
  induction c generalizing rid nid with
  | zero => rfl
  | succ c ih => rw [plainFrom]; simp only [List.map_cons, List.range', ih]

theorem twinsFrom_get_pair (rid nid t i : Nat) (h : i < t) :
    (twinsFrom rid nid t).get? (2 * i) = some ⟨rid + i, nid + 2 * i⟩ ∧
      (twinsFrom rid nid t).get? (2 * i + 1) = some ⟨rid + i, nid + 2 * i + 1⟩ := by
  induction i generalizing rid nid t with
  | zero =>
    obtain ⟨t1, rfl⟩ : ∃ m, t = m + 1 := ⟨t - 1, by omega⟩
    rw [twinsFrom]
    simp [List.get?]
  | succ i ih =>
    obtain ⟨t1, rfl⟩ : ∃ m, t = m + 1 := ⟨t - 1, by omega⟩
    rw [twinsFrom]
    obtain ⟨ha, hb⟩ := ih (rid + 1) (nid + 2) t1 (by omega)
    have e2 : 2 * (i + 1) = 2 * i + 1 + 1 := by omega
    have e3 : rid + 1 + i = rid + (i + 1) := by omega
    have e4 : nid + 2 + 2 * i = nid + 2 * (i + 1) := by omega
    constructor
    · rw [e2, List.get?_cons_succ, List.get?_cons_succ, ha]
      simp only [Option.some_inj, NodeID.mk.injEq]
      omega
    · rw [e2, List.get?_cons_succ, List.get?_cons_succ, hb]
      simp only [Option.some_inj, NodeID.mk.injEq]
      omega

/-- C10: for every successful construction with `1 ≤ numTwins ≤ replicas`,
the roster lists the `2*numTwins` twinned NodeIds first in allocation order
followed by the `replicas - numTwins` non-twinned ones; NetworkIds read off
the roster are exactly `1, 2, ..., replicas + numTwins` in strictly
increasing order; and twin pair `i` (0-based) is the two NodeIds with
ReplicaId `i+1` and the consecutive NetworkIds `2i+1`, `2i+2` (so for
replicas = 4, numTwins = 1 the twin pair is `(1, net 1)` and
`(1, net 2)`). -/
theorem c10_roster (r t k rd : Nat) (g : Generator) (h1 : 1 ≤ t) (h2 : t ≤ r)
    (hg : NewGenerator r t k rd = some g) :
    g.allNodes = twinsRoster t ++ plainRoster t r ∧
      g.allNodes.map NodeID.NetworkID = List.range' 1 (r + t) ∧
      ∀ i, i < t →
        g.allNodes.get? (2 * i) = some ⟨i + 1, 2 * i + 1⟩ ∧
        g.allNodes.get? (2 * i + 1) = some ⟨i + 1, 2 * i + 2⟩ := by
  have hall : g.allNodes = (assignIDs r 1 1 t).1 ++ (assignIDs r 1 1 t).2.1 := by
    unfold NewGenerator at hg
    simp only [] at hg
    cases hps : genPartitionScenarios (assignIDs r 1 1 t).1 (assignIDs r 1 1 t).2.1 k 1 with
    | none => rw [hps] at hg; exact absurd hg (by simp)
    | some ps =>
      rw [hps] at hg
      obtain rfl := (Option.some_inj.mp hg).symm
      rfl
  rw [assignIDs_closed] at hall
  dsimp only at hall
  have hmin : min t r = t := by omega
  rw [hmin] at hall
  have e1 : (1 : Nat) + t = t + 1 := by omega
  have e2 : (1 : Nat) + 2 * t = 2 * t + 1 := by omega
  rw [e1, e2] at hall
  refine ⟨hall, ?_, ?_⟩
  · rw [hall, List.map_append, twinsFrom_map_net, plainFrom_map_net]
    have := List.range'_append 1 (2 * t) (r - t) 1
    simp only [Nat.one_mul] at this
    rw [e2] at this
    rw [this]
    have : r - t + 2 * t = r + t := by omega
    rw [this]
  · intro i hi
    have hlen : 2 * i + 1 < (twinsFrom 1 1 t).length := by
      rw [twinsFrom_length]; omega
    obtain ⟨ha, hb⟩ := twinsFrom_get_pair 1 1 t i hi
    rw [hall]
    rw [List.get?_append (by omega), List.get?_append hlen, ha, hb]
    constructor <;> (simp only [Option.some_inj, NodeID.mk.injEq]; omega)

/-- C10, witness at the spec's example row B (replicas 4, numTwins 1). -/
theorem c10_witness :
    ((NewGenerator 4 1 2 1).getD default).allNodes = twinsRoster 1 ++ plainRoster 1 4 ∧
      ((NewGenerator 4 1 2 1).getD default).allNodes.map NodeID.NetworkID =
        List.range' 1 (4 + 1) ∧
      ∀ i, i < 1 →
        ((NewGenerator 4 1 2 1).getD default).allNodes.get? (2 * i) =
            some ⟨i + 1, 2 * i + 1⟩ ∧
          ((NewGenerator 4 1 2 1).getD default).allNodes.get? (2 * i + 1) =
            some ⟨i + 1, 2 * i + 2⟩ :=
  c10_roster 4 1 2 1 ((NewGenerator 4 1 2 1).getD default) (by decide) (by decide)
    (by decide)

/-! ### Claim C9: ordering of the twin-assignment Cartesian product -/

theorem bindMap_length (l : List twinAssignment) (r : List (List twinAssignment)) :
    (l.flatMap (fun v => r.map (fun p => v :: p))).length = l.length * r.length := by
  induction l with
  | nil => simp
  | cons v l ih => simp only [List.flatMap_cons, List.length_append, List.length_map,
      List.length_cons, ih]; ring

theorem bindMap_get (l : List twinAssignment) (r : List (List twinAssignment))
    (idx : Nat) (h : idx < l.length * r.length) :
    (l.flatMap (fun v => r.map (fun p => v :: p))).get? idx =
      (l.get? (idx / r.length)).bind
        (fun v => (r.get? (idx % r.length)).map (fun p => v :: p)) := by
  induction l generalizing idx with
  | nil => simp at h
  | cons v l ih =>
    rcases Nat.eq_zero_or_pos r.length with hr | hr
    · rw [hr] at h; simp at h
    · by_cases hlt : idx < r.length
      · rw [List.flatMap_cons, List.get?_append (by simpa using hlt)]
        rw [Nat.div_eq_of_lt hlt, Nat.mod_eq_of_lt hlt]
        simp [List.get?_map]
      · push_neg at hlt
        rw [List.flatMap_cons, List.get?_append_right (by simpa using hlt)]
        simp only [List.length_map]
        rw [ih (idx - r.length) (by rw [List.length_cons, Nat.succ_mul] at h; omega)]
        rw [Nat.div_eq_sub_div hr hlt, Nat.mod_eq_sub_mod hlt]
        rw [List.get?_cons_succ]

theorem cartesianProduct_cons (l : List twinAssignment)
    (rest : List (List twinAssignment)) :
    cartesianProduct (l :: rest) =
      l.flatMap (fun v => (cartesianProduct rest).map (fun p => v :: p)) := rfl

theorem cartesianProduct_replicate_length (l : List twinAssignment) (t : Nat) :
    (cartesianProduct (List.replicate t l)).length = l.length ^ t := by
  induction t with
  | zero => rfl
  | succ t ih =>
    rw [List.replicate_succ, cartesianProduct_cons, bindMap_length, ih, pow_succ,
      Nat.mul_comm]

theorem digit_helper (L e d q rem : Nat) (hL : 0 < L) :
    (L ^ (e + 1 + d) * q + rem) / L ^ e % L = rem / L ^ e % L := by
  have h1 : L ^ (e + 1 + d) * q = L ^ e * (L * (L ^ d * q)) := by
    rw [pow_add, pow_add]; ring
  rw [h1, Nat.mul_add_div (pow_pos hL e), Nat.mul_add_mod]

theorem cartesianProduct_replicate_get (l : List twinAssignment) (t idx j : Nat)
    (hidx : idx < l.length ^ t) (hj : j < t) :
    ((cartesianProduct (List.replicate t l)).get? idx).bind (fun tup => tup.get? j) =
      l.get? (idx / l.length ^ (t - 1 - j) % l.length) := by
  induction t generalizing idx j with
  | zero => omega
  | succ t ih =>
    have hL : 0 < l.length := by
      rcases Nat.eq_zero_or_pos l.length with h0 | h0
      · rw [h0, Nat.zero_pow (Nat.succ_pos t)] at hidx; omega
      · exact h0
    rw [List.replicate_succ, cartesianProduct_cons]
    rw [bindMap_get _ _ idx
      (by rw [cartesianProduct_replicate_length, ← pow_succ']; exact hidx)]
    have hCPlen : (cartesianProduct (List.replicate t l)).length = l.length ^ t :=
      cartesianProduct_replicate_length l t
    have hmodlt : idx % (cartesianProduct (List.replicate t l)).length <
        (cartesianProduct (List.replicate t l)).length :=
      Nat.mod_lt _ (by rw [hCPlen]; exact pow_pos hL t)
    have hdivlt : idx / (cartesianProduct (List.replicate t l)).length < l.length := by
      rw [hCPlen]
      apply Nat.div_lt_of_lt_mul
      rw [← pow_succ]
      exact hidx
    obtain ⟨p, hp⟩ : ∃ p, (cartesianProduct (List.replicate t l)).get?
        (idx % (cartesianProduct (List.replicate t l)).length) = some p :=
      ⟨_, List.get?_eq_get hmodlt⟩
    obtain ⟨v, hv⟩ : ∃ v, l.get? (idx / (cartesianProduct (List.replicate t l)).length)
        = some v := ⟨_, List.get?_eq_get hdivlt⟩
    rw [hp, hv]
    cases j with
    | zero =>
      have he : t + 1 - 1 - 0 = t := by omega
      rw [he]
      show (v :: p).get? 0 = l.get? (idx / l.length ^ t % l.length)
      rw [Nat.mod_eq_of_lt (by rw [← hCPlen]; exact hdivlt)]
      rw [← hCPlen, hv]
      rfl
    | succ j1 =>
      show (v :: p).get? (j1 + 1) = l.get? (idx / l.length ^ (t + 1 - 1 - (j1 + 1)) % l.length)
      rw [List.get?_cons_succ]
      have hih := ih (idx % (cartesianProduct (List.replicate t l)).length) j1
        (by rw [← hCPlen]; exact hmodlt) (by omega)
      rw [hp] at hih
      have hih1 : p.get? j1 =
          l.get? (idx % (cartesianProduct (List.replicate t l)).length /
            l.length ^ (t - 1 - j1) % l.length) := hih
      rw [show t + 1 - 1 - (j1 + 1) = t - 1 - j1 from by omega]
      rw [hih1, hCPlen]
      obtain ⟨d, hd⟩ : ∃ d, t = (t - 1 - j1) + 1 + d := ⟨j1, by omega⟩
      congr 1
      conv_rhs =>
        rw [← Nat.div_add_mod idx (l.length ^ t)]
        rw [show l.length ^ t = l.length ^ ((t - 1 - j1) + 1 + d) from by rw [← hd]]
        rw [digit_helper _ _ _ _ _ hL]
        rw [← hd]

/-- C9: the twin-assignment enumeration is the `t`-fold Cartesian product of
the twin-pair list with itself, ordered with the LAST (rightmost) tuple
position varying fastest: it has `|pairs| ^ t` tuples, and the `j`-th
component of the tuple at index `idx` is the pair at index
`idx / |pairs|^(t-1-j) mod |pairs|` — the big-endian digit expansion of
`idx`, so consecutive indices differ in the latest possible positions while
earlier positions stay fixed longest. -/
theorem c9_cartesian_rightmost_fastest (k t : Nat) (h1 : 1 ≤ t) (h2 : 1 ≤ k) :
    (cartesianProduct (List.replicate t (generateTwinPartitionPairs k))).length =
        (generateTwinPartitionPairs k).length ^ t ∧
      ∀ idx j, idx < (generateTwinPartitionPairs k).length ^ t → j < t →
        ((cartesianProduct (List.replicate t (generateTwinPartitionPairs k))).get?
              idx).bind (fun tup => tup.get? j) =
          (generateTwinPartitionPairs k).get?
            (idx / (generateTwinPartitionPairs k).length ^ (t - 1 - j) %
              (generateTwinPartitionPairs k).length) := by
  refine ⟨cartesianProduct_replicate_length _ t, ?_⟩
  intro idx j hidx hj
  exact cartesianProduct_replicate_get _ t idx j hidx hj

/-- C9, witness at `t = 2`, `k = 2`. -/
theorem c9_witness :
    (cartesianProduct (List.replicate 2 (generateTwinPartitionPairs 2))).length =
        (generateTwinPartitionPairs 2).length ^ 2 ∧
      ∀ idx j, idx < (generateTwinPartitionPairs 2).length ^ 2 → j < 2 →
        ((cartesianProduct (List.replicate 2 (generateTwinPartitionPairs 2))).get?
              idx).bind (fun tup => tup.get? j) =
          (generateTwinPartitionPairs 2).get?
            (idx / (generateTwinPartitionPairs 2).length ^ (2 - 1 - j) %
              (generateTwinPartitionPairs 2).length) :=
  c9_cartesian_rightmost_fastest 2 2 (by decide) (by decide)

/-! ### Claim C8: properties of the partition-size enumerator -/

theorem u8sub_eq (a b : Nat) (hb : b ≤ a) (ha : a ≤ 255) : u8sub a b = a - b := by
  unfold u8sub; omega

theorem mem_descList (hi lo m : Nat) : m ∈ descList hi lo ↔ lo ≤ m ∧ m ≤ hi := by
  unfold descList
  simp only [List.mem_map, List.mem_range]
  constructor
  · rintro ⟨d, hd, rfl⟩; omega
  · rintro ⟨h1, h2⟩; exact ⟨hi - m, by omega, by omega⟩

theorem descList_nodup (hi lo : Nat) : (descList hi lo).Nodup := by
  unfold descList
  apply List.Nodup.map_on _ (List.nodup_range _)
  intro x hx y hy h
  simp only [List.mem_range] at hx hy
  omega

theorem take_set_self (l : List Nat) (i : Nat) (a : Nat) :
    (l.set i a).take i = l.take i := by
  apply List.ext_getElem?
  intro j
  rw [List.getElem?_take, List.getElem?_take]
  by_cases hj : j < i
  · rw [if_pos hj, if_pos hj, List.getElem?_set_ne (by omega)]
  · rw [if_neg hj, if_neg hj]

theorem chain'_ge_replicate_zero (c : Nat) :
    List.Chain' (fun a b : Nat => b ≤ a) (List.replicate c 0) := by
  induction c with
  | zero => simp
  | succ c ih =>
    rw [List.replicate_succ, List.chain'_cons']
    refine ⟨?_, ih⟩
    intro y hy
    rw [List.head?_replicate] at hy
    split at hy
    · simp at hy
    · simp at hy; omega

theorem gpsAux_step (l i n minSize : Nat) (state : List Nat) :
    gpsAux (l + 2) i n minSize state =
      (if i = 0 ∨ n ≤ (state.set i n).getD (i - 1) 0 then [state.set i n] else []) ++
        (descList
            (if 0 < i then min (u8sub n 1) ((state.set i n).getD (i - 1) 0)
              else u8sub n 1)
            (if i = 0 then minSize else 1)).flatMap
          (fun m => gpsAux (l + 1) (i + 1) (u8sub n m) minSize (state.set i m)) := by
  show gpsAux (l + 2) i n minSize state = _
  simp only [gpsAux, List.set_set]

theorem gpsAux_small (left i n minSize : Nat) (state : List Nat) (h : left < 2) :
    gpsAux left i n minSize state =
      if i = 0 ∨ n ≤ (state.set i n).getD (i - 1) 0 then [state.set i n] else [] := by
  match left, h with
  | 0, _ => simp only [gpsAux]
  | 1, _ => simp only [gpsAux]

theorem gps_main : ∀ left i n state, left = state.length - i → i < state.length →
    1 ≤ n → n ≤ 255 →
    state.drop i = List.replicate (state.length - i) 0 →
    ∀ v ∈ gpsAux left i n 1 state,
      v.length = state.length ∧
      v.take i = state.take i ∧
      (∃ vi, v[i]? = some vi ∧ 1 ≤ vi ∧ vi ≤ n ∧
        (1 ≤ i → vi ≤ (state[i - 1]?).getD 0)) ∧
      (v.drop i).sum = n ∧
      List.Chain' (fun a b => b ≤ a) (v.drop i) ∧
      ∀ x ∈ v.drop i, x ≤ n := by
  intro left
  induction left using Nat.strong_induction_on with
  | _ left IH =>
  intro i n state hleft hi hn1 hn2 hz v hv
  have hset_pre : 1 ≤ i → (state.set i n).getD (i - 1) 0 = (state[i - 1]?).getD 0 := by
    intro h1
    rw [List.getD_eq_getElem?_getD, List.getElem?_set_ne (by omega)]
  obtain ⟨c, hc⟩ : ∃ c, state.length - i = c + 1 := ⟨state.length - i - 1, by omega⟩
  have hemit : ∀ hcond : i = 0 ∨ n ≤ (state.set i n).getD (i - 1) 0,
      (state.set i n).length = state.length ∧
      (state.set i n).take i = state.take i ∧
      (∃ vi, (state.set i n)[i]? = some vi ∧ 1 ≤ vi ∧ vi ≤ n ∧
        (1 ≤ i → vi ≤ (state[i - 1]?).getD 0)) ∧
      ((state.set i n).drop i).sum = n ∧
      List.Chain' (fun a b => b ≤ a) ((state.set i n).drop i) ∧
      ∀ x ∈ (state.set i n).drop i, x ≤ n := by
    intro hcond
    have hdrop : (state.set i n).drop i = n :: List.replicate c 0 := by
      rw [List.drop_set, if_neg (by omega), hz, hc, Nat.sub_self,
        List.replicate_succ]
      rfl
    refine ⟨List.length_set .., take_set_self .., ?_, ?_, ?_, ?_⟩
    · refine ⟨n, List.getElem?_set_self hi, hn1, le_refl n, ?_⟩
      intro h1
      rw [← hset_pre h1]
      rcases hcond with h0 | hle
      · omega
      · exact hle
    · rw [hdrop]
      simp [List.sum_replicate]
    · rw [hdrop, List.chain'_cons']
      refine ⟨?_, chain'_ge_replicate_zero c⟩
      intro y hy
      rw [List.head?_replicate] at hy
      split at hy
      · simp at hy
      · simp at hy; omega
    · rw [hdrop]
      intro x hx
      rcases List.mem_cons.mp hx with rfl | hx1
      · exact Nat.le_refl _
      · rw [List.eq_of_mem_replicate hx1]; omega
  rcases Nat.lt_or_ge left 2 with h2 | h2
  · rw [gpsAux_small _ _ _ _ _ h2] at hv
    split at hv
    · rcases List.mem_singleton.mp hv with rfl
      exact hemit (by assumption)
    · simp at hv
  · obtain ⟨l, rfl⟩ : ∃ l, left = l + 2 := ⟨left - 2, by omega⟩
    rw [gpsAux_step] at hv
    rw [List.mem_append] at hv
    rcases hv with hv | hv
    · split at hv
      · rcases List.mem_singleton.mp hv with rfl
        exact hemit (by assumption)
      · simp at hv
    · rw [List.mem_flatMap] at hv
      obtain ⟨m, hm, hvm⟩ := hv
      rw [show (if i = 0 then 1 else 1) = 1 from by split <;> rfl] at hm
      rw [mem_descList] at hm
      have hm1 : 1 ≤ m := hm.1
      have hmn : m ≤ n - 1 := by
        rcases hm with ⟨_, hm2⟩
        have : u8sub n 1 = n - 1 := u8sub_eq n 1 hn1 hn2
        by_cases h0 : 0 < i
        · rw [if_pos h0] at hm2; omega
        · rw [if_neg h0] at hm2; omega
      have hlen2 : i + 2 ≤ state.length := by omega
      have hn'1 : 1 ≤ u8sub n m := by rw [u8sub_eq n m (by omega) hn2]; omega
      have hn'2 : u8sub n m ≤ 255 := by rw [u8sub_eq n m (by omega) hn2]; omega
      have hz' : (state.set i m).drop (i + 1) =
          List.replicate ((state.set i m).length - (i + 1)) 0 := by
        rw [List.drop_set, if_pos (by omega), List.length_set]
        have : state.drop (i + 1) = (state.drop i).drop 1 := by
          rw [List.drop_drop]
        rw [this, hz, List.drop_replicate]
        congr 1
      have harg1 : l + 1 < l + 2 := by omega
      have harg2 : l + 1 = (state.set i m).length - (i + 1) := by
        rw [List.length_set]
        clear hemit hz hz' hvm IH
        omega
      have harg3 : i + 1 < (state.set i m).length := by
        rw [List.length_set]
        clear hemit hz hz' hvm IH harg2
        omega
      have hIH := IH (l + 1) harg1 (i + 1) (u8sub n m) (state.set i m)
        harg2 harg3 hn'1 hn'2 hz' v hvm
      obtain ⟨ihlen, ihtake, ⟨vi, hvi, hvi1, hvi2, hvi3⟩, ihsum, ihchain, ihmem⟩ := hIH
      rw [List.length_set] at ihlen
      have hvim : vi ≤ m := by
        have hle := hvi3 (by omega)
        simp only [Nat.add_sub_cancel] at hle
        rw [List.getElem?_set_self hi] at hle
        simpa using hle
      have hgetm : v[i]? = some m := by
        have e1 : v[i]? = (v.take (i + 1))[i]? := by
          rw [List.getElem?_take, if_pos (by omega)]
        rw [e1, ihtake, List.getElem?_take, if_pos (by omega),
          List.getElem?_set_self hi]
      have htakei : v.take i = state.take i := by
        have e1 : v.take i = (v.take (i + 1)).take i := by
          rw [List.take_take, Nat.min_eq_left (by omega)]
        rw [e1, ihtake, List.take_take, Nat.min_eq_left (by omega), take_set_self]
      have hdropv : v.drop i = m :: v.drop (i + 1) := by
        have h1 := List.drop_eq_getElem_cons (l := v) (n := i) (by omega)
        have h2 : v[i]? = some (v.get ⟨i, by omega⟩) := List.getElem?_eq_getElem _
        rw [hgetm] at h2
        rw [h1]
        congr 1
        exact (Option.some_inj.mp h2.symm)
      have hsum' : (v.drop i).sum = n := by
        rw [hdropv]
        simp only [List.sum_cons, ihsum]
        rw [u8sub_eq n m (by omega) hn2]
        omega
      refine ⟨by omega, htakei, ⟨m, hgetm, hm1, by omega, ?_⟩, hsum', ?_, ?_⟩
      · intro h1
        rcases hm with ⟨_, hm2⟩
        rw [if_pos (by omega), hset_pre h1] at hm2
        omega
      · rw [hdropv, List.chain'_cons']
        refine ⟨?_, ihchain⟩
        intro y hy
        rw [List.head?_drop, hvi] at hy
        simp at hy
        omega
      · rw [hdropv]
        intro x hx
        rcases List.mem_cons.mp hx with rfl | hx1
        · omega
        · have := ihmem x hx1
          rw [u8sub_eq n m (by omega) hn2] at this
          omega

theorem getElem?_of_take_eq (v w : List Nat) (i j : Nat) (h : v.take j = w.take j)
    (hij : i < j) : v[i]? = w[i]? := by
  have h1 : (v.take j)[i]? = v[i]? := by rw [List.getElem?_take, if_pos hij]
  have h2 : (w.take j)[i]? = w[i]? := by rw [List.getElem?_take, if_pos hij]
  rw [← h1, h, h2]

theorem gps_block_head (left i n : Nat) (state : List Nat) (m : Nat)
    (hleft : left = state.length - i) (hi : i < state.length) (hn1 : 1 ≤ n)
    (hn2 : n ≤ 255)
    (hz : state.drop i = List.replicate (state.length - i) 0) (hm1 : 1 ≤ m)
    (hm2 : m ≤ n - 1) (hlen2 : i + 2 ≤ state.length) :
    ∀ v ∈ gpsAux (left - 1) (i + 1) (u8sub n m) 1 (state.set i m),
      v[i]? = some m := by
  intro v hv
  have hn'1 : 1 ≤ u8sub n m := by rw [u8sub_eq n m (by omega) hn2]; omega
  have hn'2 : u8sub n m ≤ 255 := by rw [u8sub_eq n m (by omega) hn2]; omega
  have hz' : (state.set i m).drop (i + 1) =
      List.replicate ((state.set i m).length - (i + 1)) 0 := by
    rw [List.drop_set, if_pos (by omega), List.length_set]
    have hdd : state.drop (i + 1) = (state.drop i).drop 1 := by
      rw [List.drop_drop]
    rw [hdd, hz, List.drop_replicate]
    congr 1
  have hmain := gps_main (left - 1) (i + 1) (u8sub n m) (state.set i m)
    (by rw [List.length_set]; clear hz hz'; omega)
    (by rw [List.length_set]; clear hz hz'; omega) hn'1 hn'2 hz' v hv
  have htake := hmain.2.1
  rw [getElem?_of_take_eq v (state.set i m) i (i + 1) htake (by omega)]
  exact List.getElem?_set_self hi

theorem gps_nodup : ∀ left i n state, left = state.length - i →
    i < state.length → 1 ≤ n → n ≤ 255 →
    state.drop i = List.replicate (state.length - i) 0 →
    (gpsAux left i n 1 state).Nodup := by
  intro left
  induction left using Nat.strong_induction_on with
  | _ left IH =>
  intro i n state hleft hi hn1 hn2 hz
  rcases Nat.lt_or_ge left 2 with h2 | h2
  · rw [gpsAux_small _ _ _ _ _ h2]
    split
    · exact List.nodup_singleton _
    · exact List.nodup_nil
  · obtain ⟨l, rfl⟩ : ∃ l, left = l + 2 := ⟨left - 2, by omega⟩
    rw [gpsAux_step]
    rw [List.nodup_append]
    have hflat1 : ∀ m ∈ descList
        (if 0 < i then min (u8sub n 1) ((state.set i n).getD (i - 1) 0)
          else u8sub n 1) (if i = 0 then 1 else 1),
        1 ≤ m ∧ m ≤ n - 1 := by
      intro m hm
      rw [show (if i = 0 then 1 else 1) = 1 from by split <;> rfl] at hm
      rw [mem_descList] at hm
      have : u8sub n 1 = n - 1 := u8sub_eq n 1 hn1 hn2
      rcases hm with ⟨ha, hb⟩
      by_cases h0 : 0 < i
      · rw [if_pos h0] at hb; omega
      · rw [if_neg h0] at hb; omega
    have hhead : ∀ m, 1 ≤ m → m ≤ n - 1 →
        ∀ v ∈ gpsAux (l + 1) (i + 1) (u8sub n m) 1 (state.set i m),
          v[i]? = some m := by
      intro m hm1 hm2 v hv
      exact gps_block_head (l + 2) i n state m hleft hi hn1 hn2 hz hm1 hm2
        (by omega) v hv
    refine ⟨?_, ?_, ?_⟩
    · split
      · exact List.nodup_singleton _
      · exact List.nodup_nil
    · rw [List.nodup_flatMap]
      constructor
      · intro m hm
        obtain ⟨hm1, hm2⟩ := hflat1 m hm
        have hn'1 : 1 ≤ u8sub n m := by rw [u8sub_eq n m (by omega) hn2]; omega
        have hn'2 : u8sub n m ≤ 255 := by rw [u8sub_eq n m (by omega) hn2]; omega
        have hz' : (state.set i m).drop (i + 1) =
            List.replicate ((state.set i m).length - (i + 1)) 0 := by
          rw [List.drop_set, if_pos (by omega), List.length_set]
          have hdd : state.drop (i + 1) = (state.drop i).drop 1 := by
            rw [List.drop_drop]
          rw [hdd, hz, List.drop_replicate]
          congr 1
        exact IH (l + 1) (by omega) (i + 1) (u8sub n m) (state.set i m)
          (by rw [List.length_set]; clear hz hz'; omega)
          (by rw [List.length_set]; clear hz hz'; omega) hn'1 hn'2 hz'
      · refine List.Pairwise.imp_of_mem ?_ (descList_nodup _ _)
        intro m m' hm hm' hne
        intro v hv hv'
        obtain ⟨hm1, hm2⟩ := hflat1 m hm
        obtain ⟨hm1', hm2'⟩ := hflat1 m' hm'
        have e1 := hhead m hm1 hm2 v hv
        have e2 := hhead m' hm1' hm2' v hv'
        rw [e1] at e2
        exact hne (Option.some_inj.mp e2)
    · intro v hv
      split at hv
      · rcases List.mem_singleton.mp hv with rfl
        rw [List.mem_flatMap]
        rintro ⟨m, hm, hvm⟩
        obtain ⟨hm1, hm2⟩ := hflat1 m hm
        have e1 := hhead m hm1 hm2 _ hvm
        rw [List.getElem?_set_self hi] at e1
        have : n = m := Option.some_inj.mp e1
        omega
      · simp at hv

/-- C8: for every `n ≥ 1` and `k ≥ 1` (in the `uint8` domain, so `n ≤ 255`)
with `minSize = 1`, the size enumerator succeeds and every enumerated
partition-size vector has length `k`, is non-increasing
(`s[0] ≥ s[1] ≥ … ≥ s[k-1] ≥ 0`), sums to `n`, and has first entry at least
`minSize = 1`; moreover no vector is enumerated twice. -/
theorem c8_partition_sizes (n k : Nat) (h1 : 1 ≤ n) (h2 : 1 ≤ k) (h3 : n ≤ 255) :
    ∃ sizes, genPartitionSizes n k 1 = some sizes ∧ sizes.Nodup ∧
      ∀ v ∈ sizes, v.length = k ∧ List.Chain' (fun a b => b ≤ a) v ∧
        v.sum = n ∧ 1 ≤ v.headD 0 := by
  have hlen : (List.replicate k 0 : List Nat).length = k := List.length_replicate ..
  have hz : (List.replicate k 0 : List Nat).drop 0 =
      List.replicate ((List.replicate k 0 : List Nat).length - 0) 0 := by
    rw [List.drop_zero, hlen, Nat.sub_zero]
  refine ⟨genPartitionSizesRecursive 0 n 1 (List.replicate k 0), ?_, ?_, ?_⟩
  · unfold genPartitionSizes
    rw [if_neg (by omega)]
  · unfold genPartitionSizesRecursive
    exact gps_nodup _ 0 n _ rfl (by rw [hlen]; omega) h1 h3 hz
  · intro v hv
    unfold genPartitionSizesRecursive at hv
    have hmain := gps_main _ 0 n _ rfl (by rw [hlen]; omega) h1 h3 hz v hv
    obtain ⟨hl, -, ⟨vi, hvi, hvi1, -, -⟩, hsum, hchain, -⟩ := hmain
    rw [List.drop_zero] at hsum hchain
    refine ⟨by rw [hl, hlen], hchain, hsum, ?_⟩
    rw [List.headD_eq_head?, List.head?_eq_getElem?, hvi]
    simpa using hvi1

/-- C8, witness at `n = 3`, `k = 2`. -/
theorem c8_witness :
    ∃ sizes, genPartitionSizes 3 2 1 = some sizes ∧ sizes.Nodup ∧
      ∀ v ∈ sizes, v.length = 2 ∧ List.Chain' (fun a b => b ≤ a) v ∧
        v.sum = 3 ∧ 1 ≤ v.headD 0 :=
  c8_partition_sizes 3 2 (by decide) (by decide) (by decide)

/-! ### Claim C1: the number of scenarios the iterator yields -/

theorem valBE_aux (base : Nat) : ∀ (l : List Nat) (a : Nat),
    l.foldl (fun x d => x * base + d) a =
      a * base ^ l.length + l.foldl (fun x d => x * base + d) 0 := by
  intro l
  induction l with
  | nil => intro a; simp
  | cons d l ih =>
    intro a
    rw [List.foldl_cons, List.foldl_cons, ih (a * base + d), ih (0 * base + d)]
    simp only [List.length_cons]
    ring

theorem valBE_cons (base d : Nat) (l : List Nat) :
    valBE base (d :: l) = d * base ^ l.length + valBE base l := by
  unfold valBE
  rw [List.foldl_cons, valBE_aux]
  have h0 : (0 : Nat) * base + d = d := by omega
  rw [h0]

theorem valBE_replicate_zero (base c : Nat) :
    valBE base (List.replicate c 0) = 0 := by
  induction c with
  | zero => rfl
  | succ c ih => rw [List.replicate_succ, valBE_cons, ih]; omega

theorem valBE_lt (base : Nat) (hb : 0 < base) : ∀ l : List Nat,
    (∀ d ∈ l, d < base) → valBE base l < base ^ l.length := by
  intro l
  induction l with
  | nil =>
    intro _
    show (0 : Nat) < base ^ 0
    simp
  | cons d t ih =>
    intro hd
    rw [valBE_cons]
    have hdb : d < base := hd d (List.mem_cons_self ..)
    have h := ih (fun x hx => hd x (List.mem_cons_of_mem _ hx))
    have h1 : d * base ^ t.length ≤ (base - 1) * base ^ t.length :=
      Nat.mul_le_mul_right _ (by omega)
    have h2 : (base - 1) * base ^ t.length + base ^ t.length =
        base ^ (t.length + 1) := by
      calc (base - 1) * base ^ t.length + base ^ t.length
          = ((base - 1) + 1) * base ^ t.length := by rw [Nat.succ_mul]
        _ = base * base ^ t.length := by rw [Nat.sub_add_cancel (by omega)]
        _ = base ^ (t.length + 1) := by rw [← pow_succ']
    simp only [List.length_cons]
    omega

theorem incBE_spec (base : Nat) : ∀ idx : List Nat, (∀ d ∈ idx, d < base) →
    idx ≠ [] →
    (∀ idx', incBE base idx = some idx' →
      idx'.length = idx.length ∧ (∀ d ∈ idx', d < base) ∧
        valBE base idx' = valBE base idx + 1) ∧
    (incBE base idx = none → valBE base idx + 1 = base ^ idx.length) := by
  intro idx
  induction idx with
  | nil => intro _ h; exact absurd rfl h
  | cons d rest ih =>
    intro hd _
    have hdb : d < base := hd d (List.mem_cons_self ..)
    cases rest with
    | nil =>
      constructor
      · intro idx' h
        rw [incBE] at h
        split at h
        · obtain rfl := (Option.some_inj.mp h).symm
          refine ⟨rfl, ?_, ?_⟩
          · intro x hx
            rcases List.mem_singleton.mp hx with rfl
            omega
          · rw [valBE_cons, valBE_cons]
            rw [show valBE base [] = 0 from rfl]
            simp only [List.length_nil, pow_zero]
            omega
        · exact absurd h (by simp)
      · intro h
        rw [incBE] at h
        split at h
        · exact absurd h (by simp)
        · rw [valBE_cons]
          rw [show valBE base [] = 0 from rfl]
          simp only [List.length_nil, pow_zero, List.length_cons, Nat.zero_add,
            pow_one]
          omega
    | cons e rest2 =>
      have htail : ∀ x ∈ e :: rest2, x < base :=
        fun x hx => hd x (List.mem_cons_of_mem _ hx)
      obtain ⟨ihs, ihn⟩ := ih htail (List.cons_ne_nil e rest2)
      have heq : incBE base (d :: e :: rest2) =
          (match incBE base (e :: rest2) with
            | some r1 => some (d :: r1)
            | none =>
              if d + 1 < base then
                some ((d + 1) :: List.replicate (e :: rest2).length 0)
              else none) := rfl
      constructor
      · intro idx' h
        rw [heq] at h
        split at h
        next r1 hr1 =>
          obtain rfl := (Option.some_inj.mp h).symm
          obtain ⟨hl1, hd1, hv1⟩ := ihs r1 hr1
          refine ⟨by simp [hl1], ?_, ?_⟩
          · intro x hx
            rcases List.mem_cons.mp hx with rfl | hx1
            · omega
            · exact hd1 x hx1
          · rw [valBE_cons, valBE_cons, hl1, hv1]
            omega
        next hr1 =>
          split at h
          · obtain rfl := (Option.some_inj.mp h).symm
            have hval := ihn hr1
            refine ⟨by simp, ?_, ?_⟩
            · intro x hx
              rcases List.mem_cons.mp hx with rfl | hx1
              · omega
              · rw [List.eq_of_mem_replicate hx1]; omega
            · rw [valBE_cons, valBE_cons, valBE_replicate_zero,
                List.length_replicate]
              have hx : (d + 1) * base ^ (e :: rest2).length =
                  d * base ^ (e :: rest2).length + base ^ (e :: rest2).length := by
                ring
              omega
          · exact absurd h (by simp)
      · intro h
        rw [heq] at h
        split at h
        next r1 hr1 => exact absurd h (by simp)
        next hr1 =>
          split at h
          next hlt => exact absurd h (by simp)
          next hlt =>
            have hval := ihn hr1
            have hd1 : d + 1 = base := by omega
            rw [valBE_cons]
            have hpow : base ^ (d :: e :: rest2 : List Nat).length =
                base * base ^ (e :: rest2 : List Nat).length := by
              rw [show (d :: e :: rest2 : List Nat).length =
                (e :: rest2 : List Nat).length + 1 from rfl, pow_succ']
            have hx : d * base ^ (e :: rest2 : List Nat).length +
                base ^ (e :: rest2 : List Nat).length =
                base * base ^ (e :: rest2 : List Nat).length := by
              rw [← hd1]
              ring
            omega

theorem odoLoop_append (base : Nat) (ws : List Nat) : ∀ (i : Nat) (ys : List Nat),
    i < ys.length →
    odoLoop base (ys ++ ws) i =
      match odoLoop base ys i with
      | none => none
      | some (OdoResult.ok l) => some (OdoResult.ok (l ++ ws))
      | some OdoResult.exhausted => some OdoResult.exhausted := by
  intro i
  induction i with
  | zero =>
    intro ys hi
    obtain ⟨v, hv⟩ : ∃ v, ys.get? 0 = some v := by
      rw [List.get?_eq_getElem?]
      exact ⟨_, List.getElem?_eq_getElem hi⟩
    have hv2 : (ys ++ ws).get? 0 = some v := by
      rw [List.get?_eq_getElem?, List.getElem?_append_left hi,
        ← List.get?_eq_getElem?, hv]
    simp only [odoLoop, hv, hv2]
    by_cases hb : v + 1 < base
    · rw [if_pos hb, if_pos hb]
      rw [show (ys ++ ws).set 0 (v + 1) = ys.set 0 (v + 1) ++ ws from by
        rw [List.set_append, if_pos hi]]
    · rw [if_neg hb, if_neg hb]
  | succ i ihi =>
    intro ys hi
    obtain ⟨v, hv⟩ : ∃ v, ys.get? (i + 1) = some v := by
      rw [List.get?_eq_getElem?]
      exact ⟨_, List.getElem?_eq_getElem hi⟩
    have hv2 : (ys ++ ws).get? (i + 1) = some v := by
      rw [List.get?_eq_getElem?, List.getElem?_append_left hi,
        ← List.get?_eq_getElem?, hv]
    simp only [odoLoop, hv, hv2]
    by_cases hb : v + 1 < base
    · rw [if_pos hb, if_pos hb]
      rw [show (ys ++ ws).set (i + 1) (v + 1) = ys.set (i + 1) (v + 1) ++ ws from by
        rw [List.set_append, if_pos hi]]
    · rw [if_neg hb, if_neg hb]
      rw [show (ys ++ ws).set (i + 1) 0 = ys.set (i + 1) 0 ++ ws from by
        rw [List.set_append, if_pos hi]]
      exact ihi (ys.set (i + 1) 0) (by rw [List.length_set]; omega)

theorem incBE_snoc (base y : Nat) : ∀ ys : List Nat,
    incBE base (ys ++ [y]) =
      if y + 1 < base then some (ys ++ [y + 1])
      else
        match incBE base ys with
        | some r => some (r ++ [0])
        | none => none := by
  intro ys
  induction ys with
  | nil =>
    rw [List.nil_append]
    rw [show incBE base [y] = if y + 1 < base then some [y + 1] else none from rfl]
    rw [show incBE base [] = none from rfl]
    split <;> rfl
  | cons d ys ih =>
    cases ys with
    | nil =>
      rw [show (([d] : List Nat) ++ [y]) = d :: [y] from rfl]
      rw [show incBE base (d :: [y]) =
        (match incBE base [y] with
          | some r1 => some (d :: r1)
          | none =>
            if d + 1 < base then some ((d + 1) :: List.replicate 1 0)
            else none) from rfl]
      rw [show incBE base [y] = if y + 1 < base then some [y + 1] else none from rfl]
      rw [show incBE base [d] = if d + 1 < base then some [d + 1] else none from rfl]
      by_cases hb : y + 1 < base
      · rw [if_pos hb, if_pos hb]
        rfl
      · rw [if_neg hb, if_neg hb]
        by_cases hd : d + 1 < base
        · rw [if_pos hd, if_pos hd]
          rfl
        · rw [if_neg hd, if_neg hd]
    | cons e ys2 =>
      rw [show ((d :: e :: ys2) ++ [y]) = d :: ((e :: ys2) ++ [y]) from rfl]
      rw [show incBE base (d :: ((e :: ys2) ++ [y])) =
        (match incBE base ((e :: ys2) ++ [y]) with
          | some r1 => some (d :: r1)
          | none =>
            if d + 1 < base then
              some ((d + 1) :: List.replicate ((e :: ys2) ++ [y]).length 0)
            else none) from rfl]
      rw [ih]
      rw [show incBE base (d :: e :: ys2) =
        (match incBE base (e :: ys2) with
          | some r1 => some (d :: r1)
          | none =>
            if d + 1 < base then
              some ((d + 1) :: List.replicate (e :: ys2).length 0)
            else none) from rfl]
      by_cases hb : y + 1 < base
      · rw [if_pos hb, if_pos hb]
        rfl
      · rw [if_neg hb, if_neg hb]
        cases h : incBE base (e :: ys2) with
        | some r => rfl
        | none =>
          by_cases hd : d + 1 < base
          · rw [if_pos hd]
            show some _ = _
            rw [if_pos hd]
            have : List.replicate ((e :: ys2) ++ [y]).length (0 : Nat) =
                List.replicate (e :: ys2).length 0 ++ [0] := by
              rw [List.length_append, List.length_singleton, List.replicate_succ']
            rw [this]
            rfl
          · rw [if_neg hd]
            show (none : Option (List Nat)) = _
            rw [if_neg hd]

theorem odoLoop_incBE (base : Nat) : ∀ idx : List Nat, idx ≠ [] →
    odoLoop base idx (idx.length - 1) =
      some (match incBE base idx with
        | some idx' => OdoResult.ok idx'
        | none => OdoResult.exhausted) := by
  intro idx
  induction idx using List.reverseRecOn with
  | nil => intro h; exact absurd rfl h
  | append_singleton ys y ih =>
    intro _
    have hlen : (ys ++ [y]).length - 1 = ys.length := by simp
    rw [hlen, incBE_snoc]
    cases ys with
    | nil =>
      rw [List.nil_append]
      have hg : ([y] : List Nat).get? 0 = some y := rfl
      simp only [odoLoop, hg, List.length_nil]
      by_cases hb : y + 1 < base
      · rw [if_pos hb, if_pos hb]
        rfl
      · rw [if_neg hb, if_neg hb]
        rfl
    | cons z zs =>
      have hglen : ((z :: zs) ++ [y]).get? (z :: zs).length = some y := by
        rw [List.get?_eq_getElem?, List.getElem?_concat_length]
      rw [show (z :: zs : List Nat).length = zs.length + 1 from rfl] at hglen ⊢
      simp only [odoLoop, hglen]
      by_cases hb : y + 1 < base
      · rw [if_pos hb, if_pos hb]
        rw [show ((z :: zs) ++ [y]).set (zs.length + 1) (y + 1) =
            (z :: zs) ++ [y + 1] from by
          rw [List.set_append, if_neg (by simp),
            show zs.length + 1 - (z :: zs : List Nat).length = 0 from by simp]
          rfl]
      · rw [if_neg hb, if_neg hb]
        rw [show ((z :: zs) ++ [y]).set (zs.length + 1) 0 = (z :: zs) ++ [0] from by
          rw [List.set_append, if_neg (by simp),
            show zs.length + 1 - (z :: zs : List Nat).length = 0 from by simp]
          rfl]
        rw [odoLoop_append base [0] zs.length (z :: zs) (by simp)]
        rw [show zs.length = (z :: zs : List Nat).length - 1 from rfl]
        rw [ih (by simp)]
        cases h : incBE base (z :: zs) with
        | some r => rfl
        | none => rfl

theorem buildViewsAux_some : ∀ (indices : List Nat) (i : Nat) (p : List View)
    (offsets : List Nat) (lp : List View),
    (∀ d ∈ indices, d < lp.length) → (∀ o ∈ offsets, o < lp.length) →
    i + indices.length ≤ offsets.length → i + indices.length ≤ p.length →
    ∃ q, buildViewsAux p i indices offsets lp = some q ∧ q.length = p.length ∧
      (∀ j, j < i → q.get? j = p.get? j) ∧
      (∀ j, i ≤ j → j < i + indices.length → ∃ v, q.get? j = some v ∧ v ∈ lp) ∧
      (∀ j, i + indices.length ≤ j → q.get? j = p.get? j) := by
  intro indices
  induction indices with
  | nil =>
    intro i p offsets lp _ _ _ _
    exact ⟨p, rfl, rfl, fun j _ => rfl, fun j h1 h2 => by simp at h2; omega,
      fun j _ => rfl⟩
  | cons ii rest ih =>
    intro i p offsets lp hd ho hlo hlp
    rw [List.length_cons] at hlo hlp
    have hio : i < offsets.length := by omega
    obtain ⟨o, hoo⟩ : ∃ o, offsets.get? i = some o := by
      rw [List.get?_eq_getElem?]
      exact ⟨_, List.getElem?_eq_getElem hio⟩
    have holt : o < lp.length := ho o (List.get?_mem hoo)
    have hiilt : ii < lp.length := hd ii (List.mem_cons_self ..)
    have hidxlt : (if lp.length ≤ ii + o then ii + o - lp.length else ii + o)
        < lp.length := by
      split <;> omega
    obtain ⟨v, hv⟩ : ∃ v, lp.get?
        (if lp.length ≤ ii + o then ii + o - lp.length else ii + o) = some v := by
      rw [List.get?_eq_getElem?]
      exact ⟨_, List.getElem?_eq_getElem hidxlt⟩
    have hip : i < p.length := by omega
    obtain ⟨q, hq, hqlen, hq1, hq2, hq3⟩ := ih (i + 1) (p.set i v) offsets lp
      (fun d hdm => hd d (List.mem_cons_of_mem _ hdm)) ho
      (by omega) (by rw [List.length_set]; omega)
    refine ⟨q, ?_, ?_, ?_, ?_, ?_⟩
    · rw [show buildViewsAux p i (ii :: rest) offsets lp =
        (match offsets.get? i with
          | none => none
          | some off =>
            match lp.get? (if lp.length ≤ ii + off then ii + off - lp.length
                else ii + off) with
            | none => none
            | some v => if i < p.length then
                buildViewsAux (p.set i v) (i + 1) rest offsets lp
              else none) from rfl]
      simp only [hoo, hv]
      rw [if_pos hip]
      exact hq
    · rw [hqlen, List.length_set]
    · intro j hj
      rw [hq1 j (by omega), List.get?_eq_getElem?, List.getElem?_set_ne (by omega),
        List.get?_eq_getElem?]
    · intro j hj1 hj2
      rw [List.length_cons] at hj2
      rcases Nat.eq_or_lt_of_le hj1 with rfl | hj3
      · refine ⟨v, ?_, List.get?_mem hv⟩
        rw [hq1 i (by omega), List.get?_eq_getElem?, List.getElem?_set_self hip]
      · exact hq2 j (by omega) (by omega)
    · intro j hj
      rw [List.length_cons] at hj
      rw [hq3 j (by omega), List.get?_eq_getElem?,
        List.getElem?_set_ne (by omega), List.get?_eq_getElem?]

theorem buildViews_some (g : Generator)
    (hlen : g.indices.length = g.rounds) (holen : g.offsets.length = g.rounds)
    (hd : ∀ d ∈ g.indices, d < g.leadersPartitions.length)
    (ho : ∀ o ∈ g.offsets, o < g.leadersPartitions.length) :
    ∃ q, buildViews g.rounds g.indices g.offsets g.leadersPartitions = some q ∧
      q.length = g.rounds ∧ ∀ v ∈ q, v ∈ g.leadersPartitions := by
  obtain ⟨q, hq, hqlen, hq1, hq2, hq3⟩ := buildViewsAux_some g.indices 0
    (List.replicate g.rounds default) g.offsets g.leadersPartitions hd ho
    (by omega) (by rw [List.length_replicate]; omega)
  rw [List.length_replicate] at hqlen
  refine ⟨q, hq, hqlen, ?_⟩
  intro v hv
  obtain ⟨j, hj⟩ := List.mem_iff_getElem?.mp hv
  have hjlt : j < q.length := by
    by_contra hge
    rw [List.getElem?_eq_none (by omega)] at hj
    exact Option.noConfusion hj
  obtain ⟨w, hw, hwlp⟩ := hq2 j (by omega) (by omega)
  rw [List.get?_eq_getElem?, hj] at hw
  obtain rfl := Option.some_inj.mp hw
  exact hwlp

theorem nextScenario_step (g : Generator) (hr : 1 ≤ g.rounds)
    (hlen : g.indices.length = g.rounds) (holen : g.offsets.length = g.rounds)
    (hd : ∀ d ∈ g.indices, d < g.leadersPartitions.length)
    (ho : ∀ o ∈ g.offsets, o < g.leadersPartitions.length) :
    (∀ idx', incBE g.leadersPartitions.length g.indices = some idx' →
      ∃ p, NextScenario g =
          some (⟨g.allNodes, p⟩, true, { g with indices := idx' }) ∧
        p.length = g.rounds ∧ ∀ v ∈ p, v ∈ g.leadersPartitions) ∧
    (incBE g.leadersPartitions.length g.indices = none →
      NextScenario g = some (⟨[], []⟩, false, { g with indices := [] })) := by
  obtain ⟨q, hq, hqlen, hqmem⟩ := buildViews_some g hlen holen hd ho
  have hne : g.indices ≠ [] := by
    intro h
    rw [h] at hlen
    simp at hlen
    omega
  have hodo := odoLoop_incBE g.leadersPartitions.length g.indices hne
  have hstep : NextScenario g =
      match buildViews g.rounds g.indices g.offsets g.leadersPartitions with
      | none => none
      | some p =>
        if g.rounds = 0 then some (⟨g.allNodes, p⟩, true, g)
        else
          match odoLoop g.leadersPartitions.length g.indices (g.rounds - 1) with
          | none => none
          | some OdoResult.exhausted =>
            some (⟨[], []⟩, false, { g with indices := [] })
          | some (OdoResult.ok idx1) =>
            some (⟨g.allNodes, p⟩, true, { g with indices := idx1 }) := rfl
  rw [show g.rounds - 1 = g.indices.length - 1 from by rw [hlen]] at hstep
  constructor
  · intro idx' hinc
    rw [hinc] at hodo
    refine ⟨q, ?_, hqlen, hqmem⟩
    rw [hstep]
    simp only [hq]
    rw [if_neg (by omega), hodo]
  · intro hinc
    rw [hinc] at hodo
    rw [hstep]
    simp only [hq]
    rw [if_neg (by omega), hodo]

theorem drain_inv : ∀ fuel (g : Generator), 1 ≤ g.rounds →
    g.indices.length = g.rounds → g.offsets.length = g.rounds →
    (∀ d ∈ g.indices, d < g.leadersPartitions.length) →
    (∀ o ∈ g.offsets, o < g.leadersPartitions.length) →
    g.leadersPartitions.length ^ g.rounds -
      valBE g.leadersPartitions.length g.indices ≤ fuel →
    drainCount fuel g =
      some (g.leadersPartitions.length ^ g.rounds - 1 -
        valBE g.leadersPartitions.length g.indices) := by
  intro fuel
  induction fuel with
  | zero =>
    intro g hr hlen holen hd ho hfuel
    have hne : g.indices ≠ [] := by
      intro h; rw [h] at hlen; simp at hlen; omega
    have hL : 0 < g.leadersPartitions.length := by
      obtain ⟨d, hdm⟩ := List.exists_mem_of_ne_nil _ hne
      have := hd d hdm
      omega
    have hvlt := valBE_lt _ hL g.indices hd
    rw [hlen] at hvlt
    omega
  | succ fuel ih =>
    intro g hr hlen holen hd ho hfuel
    have hne : g.indices ≠ [] := by
      intro h; rw [h] at hlen; simp at hlen; omega
    have hL : 0 < g.leadersPartitions.length := by
      obtain ⟨d, hdm⟩ := List.exists_mem_of_ne_nil _ hne
      have := hd d hdm
      omega
    obtain ⟨hstep_t, hstep_f⟩ := nextScenario_step g hr hlen holen hd ho
    have hdc : drainCount (fuel + 1) g =
        (match NextScenario g with
          | none => none
          | some (_, false, _) => some 0
          | some (_, true, g1) => (drainCount fuel g1).map (· + 1)) := rfl
    cases hinc : incBE g.leadersPartitions.length g.indices with
    | none =>
      have h2 := hstep_f hinc
      rw [hdc]
      simp only [h2]
      have hfull := (incBE_spec _ g.indices hd hne).2 hinc
      rw [hlen] at hfull
      rw [show g.leadersPartitions.length ^ g.rounds - 1 -
        valBE g.leadersPartitions.length g.indices = 0 from by omega]
    | some idx' =>
      obtain ⟨p, hns, hplen, hpmem⟩ := hstep_t idx' hinc
      obtain ⟨hlen', hd', hval'⟩ := (incBE_spec _ g.indices hd hne).1 idx' hinc
      have hvlt := valBE_lt _ hL idx' hd'
      rw [hlen', hlen] at hvlt
      rw [hdc]
      simp only [hns]
      have hrec := ih { g with indices := idx' } hr (by simp [hlen', hlen]) holen
        (by simpa using hd') ho (by simp only []; rw [hval']; omega)
      rw [hrec]
      show some (g.leadersPartitions.length ^ g.rounds - 1 -
        valBE g.leadersPartitions.length idx' + 1) = _
      rw [hval']
      congr 1
      omega

theorem incBE_allmax (L : Nat) (hL : 1 ≤ L) :
    ∀ c, incBE L (List.replicate (c + 1) (L - 1)) = none := by
  intro c
  induction c with
  | zero =>
    rw [show List.replicate 1 (L - 1) = [L - 1] from rfl]
    rw [show incBE L [L - 1] =
      (if (L - 1) + 1 < L then some [L - 1 + 1] else none) from rfl]
    rw [if_neg (by omega)]
  | succ c ih =>
    rw [List.replicate_succ,
      show List.replicate (c + 1) (L - 1) = (L - 1) :: List.replicate c (L - 1)
        from List.replicate_succ ..]
    rw [show incBE L ((L - 1) :: (L - 1) :: List.replicate c (L - 1)) =
      (match incBE L ((L - 1) :: List.replicate c (L - 1)) with
        | some r1 => some ((L - 1) :: r1)
        | none =>
          if (L - 1) + 1 < L then
            some ((L - 1 + 1) ::
              List.replicate ((L - 1) :: List.replicate c (L - 1)).length 0)
          else none) from rfl]
    rw [← List.replicate_succ, ih, if_neg (by omega)]

/-- C1, amended: starting from an all-zero odometer with at least one round
and a non-empty view-spec list, repeatedly calling `NextScenario` yields
exactly `|LP| ^ rounds - 1` scenarios with `ok = true` (one fewer than the
full Cartesian product); the call made while the odometer sits at the
all-max indices vector builds that last scenario but discards it, returning
the zero value of `Scenario` together with `ok = false`. -/
theorem c1_scenario_count (g : Generator) (hr : 1 ≤ g.rounds)
    (hL : 1 ≤ g.leadersPartitions.length)
    (hidx : g.indices = List.replicate g.rounds 0)
    (holen : g.offsets.length = g.rounds)
    (ho : ∀ o ∈ g.offsets, o < g.leadersPartitions.length) :
    drainCount (g.leadersPartitions.length ^ g.rounds) g =
        some (g.leadersPartitions.length ^ g.rounds - 1) ∧
      ∀ g2 : Generator, g2.rounds = g.rounds →
        g2.leadersPartitions = g.leadersPartitions → g2.offsets = g.offsets →
        g2.indices = List.replicate g.rounds (g.leadersPartitions.length - 1) →
        NextScenario g2 = some (⟨[], []⟩, false, { g2 with indices := [] }) := by
  constructor
  · have h := drain_inv (g.leadersPartitions.length ^ g.rounds) g hr
      (by rw [hidx, List.length_replicate]) holen
      (by rw [hidx]; intro d hdm; rw [List.eq_of_mem_replicate hdm]; omega) ho
      (by rw [hidx, valBE_replicate_zero]; omega)
    rw [h, hidx, valBE_replicate_zero, Nat.sub_zero]
  · intro g2 he1 he2 he3 he4
    obtain ⟨-, hstep_f⟩ := nextScenario_step g2 (by omega)
      (by rw [he4, List.length_replicate, he1])
      (by rw [he3, he1]; exact holen)
      (by rw [he4, he2]; intro d hdm; rw [List.eq_of_mem_replicate hdm]; omega)
      (by rw [he3, he2]; exact ho)
    apply hstep_f
    rw [he4, he2]
    obtain ⟨c, hc⟩ : ∃ c, g.rounds = c + 1 := ⟨g.rounds - 1, by omega⟩
    rw [hc]
    exact incBE_allmax _ hL c

/-- C1, counterexample to the claim as stated: for the generator built from
(1, 1, 1, 1) the iterator has `|LP| ^ rounds = 1`, yet the drain yields 0
scenarios with `ok = true` — the all-max (here all-zero) state's scenario is
discarded when exhaustion is reported. -/
theorem c1_counterexample :
    (NewGenerator 1 1 1 1).bind (fun g => drainCount 2 g) = some 0 ∧
      (NewGenerator 1 1 1 1).map
        (fun g => g.leadersPartitions.length ^ g.rounds) = some 1 := by
  decide

/-- C1, witness for the amended theorem at the generator built from
(2, 1, 1, 1), where `|LP| = 2`, `rounds = 1`. -/
theorem c1_witness :
    drainCount
        (((NewGenerator 2 1 1 1).getD default).leadersPartitions.length ^
          ((NewGenerator 2 1 1 1).getD default).rounds)
        ((NewGenerator 2 1 1 1).getD default) =
      some
        (((NewGenerator 2 1 1 1).getD default).leadersPartitions.length ^
            ((NewGenerator 2 1 1 1).getD default).rounds - 1) ∧
      ∀ g2 : Generator, g2.rounds = ((NewGenerator 2 1 1 1).getD default).rounds →
        g2.leadersPartitions =
          ((NewGenerator 2 1 1 1).getD default).leadersPartitions →
        g2.offsets = ((NewGenerator 2 1 1 1).getD default).offsets →
        g2.indices = List.replicate ((NewGenerator 2 1 1 1).getD default).rounds
          (((NewGenerator 2 1 1 1).getD default).leadersPartitions.length - 1) →
        NextScenario g2 = some (⟨[], []⟩, false, { g2 with indices := [] }) :=
  c1_scenario_count ((NewGenerator 2 1 1 1).getD default) (by decide) (by decide)
    (by decide) (by decide) (by decide)

/-! ### Claims C7 and C5: machinery for the partition builder -/

theorem countPlaced_aux (p : Nat) : ∀ (tas : List twinAssignment) (acc : Nat),
    tas.foldl
        (fun a ab =>
          a + (if ab.1 = p then 1 else 0) + (if ab.2 = p then 1 else 0)) acc =
      acc + tas.foldl
        (fun a ab =>
          a + (if ab.1 = p then 1 else 0) + (if ab.2 = p then 1 else 0)) 0 := by
  intro tas
  induction tas with
  | nil => intro acc; simp
  | cons ab rest ih =>
    intro acc
    rw [List.foldl_cons, List.foldl_cons, ih, ih (0 + _ + _)]
    omega

theorem countPlaced_cons (p : Nat) (ab : twinAssignment)
    (rest : List twinAssignment) :
    countPlaced (ab :: rest) p =
      (if ab.1 = p then 1 else 0) + (if ab.2 = p then 1 else 0) +
        countPlaced rest p := by
  unfold countPlaced
  rw [List.foldl_cons, countPlaced_aux]
  omega

theorem nodup_get_notin_take (l : List NodeID) (hl : l.Nodup) (c : Nat)
    (x : NodeID) (hx : l.get? c = some x) : x ∉ l.take c := by
  intro hmem
  obtain ⟨j, hj⟩ := List.mem_iff_getElem?.mp hmem
  have hjlt : j < (l.take c).length := by
    by_contra hge
    rw [List.getElem?_eq_none (by omega)] at hj
    exact Option.noConfusion hj
  rw [List.length_take] at hjlt
  have hjc : j < c := by omega
  have hjl : l[j]? = some x := by
    rw [← List.getElem?_take_of_lt hjc]
    exact hj
  have hcl : l[c]? = some x := by rw [← List.get?_eq_getElem?]; exact hx
  have hjlen : j < l.length := by omega
  have hclen : c < l.length := by
    by_contra hge
    rw [List.getElem?_eq_none (by omega)] at hcl
    exact Option.noConfusion hcl
  have hgj : l.get ⟨j, hjlen⟩ = x := by
    have h3 := List.get?_eq_get hjlen
    rw [List.get?_eq_getElem?, hjl] at h3
    exact (Option.some_inj.mp h3).symm
  have hgc : l.get ⟨c, hclen⟩ = x := by
    have h3 := List.get?_eq_get hclen
    rw [List.get?_eq_getElem?, hcl] at h3
    exact (Option.some_inj.mp h3).symm
  have heq : j = c := by
    have h2 : l.get ⟨j, hjlen⟩ = l.get ⟨c, hclen⟩ := by rw [hgj, hgc]
    have h4 := (List.Nodup.get_inj_iff hl).mp h2
    exact congrArg Fin.val h4
  omega

theorem drop_eq_cons_of_get? {α : Type _} (l : List α) (n : Nat) (x : α)
    (hx : l.get? n = some x) : l.drop n = x :: l.drop (n + 1) := by
  have hn : n < l.length := List.get?_eq_some.mp hx |>.choose
  rw [List.drop_eq_getElem_cons hn]
  have h2 := List.getElem?_eq_getElem hn
  rw [← List.get?_eq_getElem?, hx] at h2
  simp [Option.some_inj.mp h2]

theorem mem_take_succ_of_get? {α : Type _} (l : List α) (n : Nat) (x : α)
    (hx : l.get? n = some x) : x ∈ l.take (n + 1) := by
  have hn : n < l.length := List.get?_eq_some.mp hx |>.choose
  have hd : l.take (n + 1) = l.take n ++ [x] := by
    rw [List.take_succ]
    have h2 : l[n]? = some x := by rw [← List.get?_eq_getElem?]; exact hx
    rw [h2]
    rfl
  rw [hd]
  simp

theorem mem_take_mono {α : Type _} (l : List α) (m n : Nat) (h : m ≤ n) (x : α)
    (hx : x ∈ l.take m) : x ∈ l.take n := by
  have : l.take m = (l.take n).take m := by
    rw [List.take_take, Nat.min_eq_left h]
  rw [this] at hx
  exact List.take_subset m (l.take n) hx

theorem take_set_succ {α : Type _} : ∀ (l : List α) (i : Nat) (a : α),
    i < l.length → (l.set i a).take (i + 1) = l.take i ++ [a] := by
  intro l
  induction l with
  | nil => intro i a h; simp at h
  | cons y ys ih =>
    intro i a h
    cases i with
    | zero => simp
    | succ j =>
      simp only [List.set_cons_succ, List.take_succ_cons, List.cons_append]
      rw [ih j a (by simpa using h)]

theorem partsJoin_cons (o : Option NodeSet) (rest : List (Option NodeSet)) :
    partsJoin (o :: rest) = slotList o ++ partsJoin rest := by
  simp [partsJoin]

theorem slotLen_cons_zero (o : Option NodeSet) (rest : List (Option NodeSet)) :
    slotLen (o :: rest) 0 = (slotList o).length := rfl

theorem slotLen_cons_succ (o : Option NodeSet) (rest : List (Option NodeSet))
    (q : Nat) : slotLen (o :: rest) (q + 1) = slotLen rest q := rfl

theorem slotLen_nil (q : Nat) : slotLen [] q = 0 := by
  cases q <;> rfl

theorem addToSlot_elim (parts : List (Option NodeSet)) (p : Nat) (x : NodeID)
    (parts1 : List (Option NodeSet)) (h : addToSlot parts p x = some parts1) :
    ∃ s, parts.get? p = some (some s) ∧ parts1 = parts.set p (some (s.add x)) := by
  unfold addToSlot at h
  cases hp : parts.get? p with
  | none => rw [hp] at h; exact absurd h (by simp)
  | some o =>
    cases o with
    | none => rw [hp] at h; exact absurd h (by simp)
    | some s =>
      rw [hp] at h
      exact ⟨s, rfl, (Option.some_inj.mp h).symm⟩

theorem addToSlot_length (parts : List (Option NodeSet)) (p : Nat) (x : NodeID)
    (parts1 : List (Option NodeSet)) (h : addToSlot parts p x = some parts1) :
    parts1.length = parts.length := by
  obtain ⟨s, -, rfl⟩ := addToSlot_elim parts p x parts1 h
  simp

theorem addToSlot_join : ∀ (parts : List (Option NodeSet)) (p : Nat) (x : NodeID)
    (parts1 : List (Option NodeSet)),
    addToSlot parts p x = some parts1 → x ∉ partsJoin parts →
    (partsJoin parts1).Perm (x :: partsJoin parts) := by
  intro parts
  induction parts with
  | nil =>
    intro p x parts1 h
    unfold addToSlot at h
    simp at h
  | cons o rest ih =>
    intro p x parts1 h hx
    obtain ⟨s, hp, rfl⟩ := addToSlot_elim _ p x parts1 h
    cases p with
    | zero =>
      rw [List.get?_cons_zero] at hp
      obtain rfl : o = some s := Option.some_inj.mp hp
      have hxs : x ∉ s := by
        intro hmem
        exact hx (by rw [partsJoin_cons]; exact List.mem_append_left _ hmem)
      simp only [List.set_cons_zero, partsJoin_cons]
      have hadd : (s.add x) = s ++ [x] := by
        unfold NodeSet.add
        rw [if_neg hxs]
      rw [hadd]
      have : slotList (some (s ++ [x])) = s ++ [x] := rfl
      rw [this]
      have : slotList (some s) = s := rfl
      rw [this]
      have h5 : (s ++ [x]) ++ partsJoin rest = s ++ (x :: partsJoin rest) := by simp
      rw [h5]
      exact List.perm_middle
    | succ q =>
      rw [List.get?_cons_succ] at hp
      have hrec : addToSlot rest q x = some (rest.set q (some (s.add x))) := by
        unfold addToSlot
        rw [hp]
      have hx2 : x ∉ partsJoin rest := by
        intro hmem
        exact hx (by rw [partsJoin_cons]; exact List.mem_append_right _ hmem)
      have := ih q x (rest.set q (some (s.add x))) hrec hx2
      simp only [List.set_cons_succ, partsJoin_cons]
      exact (this.append_left (slotList o)).trans List.perm_middle

theorem addToSlot_len (parts : List (Option NodeSet)) (p : Nat) (x : NodeID)
    (parts1 : List (Option NodeSet)) (h : addToSlot parts p x = some parts1)
    (hx : x ∉ partsJoin parts) :
    ∀ q, slotLen parts1 q = slotLen parts q + (if q = p then 1 else 0) := by
  obtain ⟨s, hp, rfl⟩ := addToSlot_elim parts p x parts1 h
  have hplen : p < parts.length := List.get?_eq_some.mp hp |>.choose
  have hxs : x ∉ s := by
    intro hmem
    apply hx
    unfold partsJoin
    rw [List.mem_flatten]
    refine ⟨s, ?_, hmem⟩
    rw [List.mem_map]
    exact ⟨some s, List.get?_mem hp, rfl⟩
  have hadd : (s.add x) = s ++ [x] := by
    unfold NodeSet.add
    rw [if_neg hxs]
  intro q
  by_cases hq : q = p
  · subst hq
    unfold slotLen
    rw [List.get?_set_eq_of_lt _ hplen, hp]
    rw [if_pos rfl]
    simp [slotList, hadd]
  · unfold slotLen
    rw [List.get?_set_ne _ _ (fun hc => hq hc.symm)]
    rw [if_neg hq]
    rfl


theorem addToSlot_made (parts : List (Option NodeSet)) (p : Nat) (x : NodeID)
    (parts1 : List (Option NodeSet)) (h : addToSlot parts p x = some parts1)
    (q : Nat) (hq : ∃ s, parts.get? q = some (some s)) :
    ∃ s, parts1.get? q = some (some s) := by
  obtain ⟨s, hp, rfl⟩ := addToSlot_elim parts p x parts1 h
  obtain ⟨sq, hsq⟩ := hq
  by_cases hqp : q = p
  · subst hqp
    have hplen : q < parts.length := List.get?_eq_some.mp hp |>.choose
    exact ⟨s.add x, by rw [List.get?_set_eq_of_lt _ hplen]⟩
  · exact ⟨sq, by rw [List.get?_set_ne _ _ (fun hc => hqp hc.symm)]; exact hsq⟩

theorem addToSlot_total (parts : List (Option NodeSet)) (p : Nat) (x : NodeID)
    (hq : ∃ s, parts.get? p = some (some s)) :
    ∃ parts1, addToSlot parts p x = some parts1 := by
  obtain ⟨s, hs⟩ := hq
  refine ⟨parts.set p (some (s.add x)), ?_⟩
  unfold addToSlot
  rw [hs]

theorem ite_eq_comm_nat (u v : Nat) :
    (if u = v then (1 : Nat) else 0) = (if v = u then 1 else 0) := by
  by_cases h : u = v
  · simp [h]
  · simp [h, Ne.symm h]

theorem placeTwins_spec (twins : List NodeID) (hnd : twins.Nodup) :
    ∀ (ta : List twinAssignment) (twin : Nat) (parts : List (Option NodeSet))
      (out : List (Option NodeSet) × Nat),
    placeTwins ta twins twin parts = some out →
    (∀ x ∈ partsJoin parts, x ∈ twins.take twin) →
    out.2 = twin + 2 * ta.length ∧
    out.1.length = parts.length ∧
    (partsJoin out.1).Perm
      (partsJoin parts ++ (twins.drop twin).take (2 * ta.length)) ∧
    (∀ q, slotLen out.1 q = slotLen parts q + countPlaced ta q) ∧
    (∀ x ∈ partsJoin out.1, x ∈ twins.take out.2) := by
  intro ta
  induction ta with
  | nil =>
    intro twin parts out h pre
    simp only [placeTwins] at h
    obtain rfl : (parts, twin) = out := Option.some_inj.mp h
    refine ⟨by simp, rfl, by simp, ?_, by simpa using pre⟩
    intro q
    simp [countPlaced]
  | cons ab rest ih =>
    intro twin parts out h pre
    obtain ⟨a, b⟩ := ab
    simp only [placeTwins] at h
    cases hx : twins.get? twin with
    | none => simp only [hx] at h; exact Option.noConfusion h
    | some x =>
      simp only [hx] at h
      cases haddx : addToSlot parts a x with
      | none => simp only [haddx] at h; exact Option.noConfusion h
      | some parts1 =>
        simp only [haddx] at h
        cases hy : twins.get? (twin + 1) with
        | none => simp only [hy] at h; exact Option.noConfusion h
        | some y =>
          simp only [hy] at h
          cases haddy : addToSlot parts1 b y with
          | none => simp only [haddy] at h; exact Option.noConfusion h
          | some parts2 =>
            simp only [haddy] at h
            have hxnotin : x ∉ partsJoin parts := by
              intro hmem
              exact nodup_get_notin_take twins hnd twin x hx (pre x hmem)
            have j1 := addToSlot_join parts a x parts1 haddx hxnotin
            have len1 := addToSlot_len parts a x parts1 haddx hxnotin
            have pre1 : ∀ z ∈ partsJoin parts1, z ∈ twins.take (twin + 1) := by
              intro z hz
              rcases List.mem_cons.mp (j1.mem_iff.mp hz) with rfl | hz2
              · exact mem_take_succ_of_get? twins twin z hx
              · exact mem_take_mono twins twin (twin + 1) (by omega) z (pre z hz2)
            have hynotin : y ∉ partsJoin parts1 := by
              intro hmem
              exact nodup_get_notin_take twins hnd (twin + 1) y hy (pre1 y hmem)
            have j2 := addToSlot_join parts1 b y parts2 haddy hynotin
            have len2 := addToSlot_len parts1 b y parts2 haddy hynotin
            have pre2 : ∀ z ∈ partsJoin parts2, z ∈ twins.take (twin + 2) := by
              intro z hz
              rcases List.mem_cons.mp (j2.mem_iff.mp hz) with rfl | hz2
              · exact mem_take_succ_of_get? twins (twin + 1) z hy
              · exact mem_take_mono twins (twin + 1) (twin + 2) (by omega) z
                  (pre1 z hz2)
            obtain ⟨ih1, ih2, ih3, ih4, ih5⟩ := ih (twin + 2) parts2 out h pre2
            have hlen12 : parts2.length = parts.length := by
              rw [addToSlot_length parts1 b y parts2 haddy,
                addToSlot_length parts a x parts1 haddx]
            refine ⟨by simp only [List.length_cons] at *; omega,
              by rw [ih2, hlen12], ?_, ?_, ?_⟩
            · have e2 : 2 * ((a, b) :: rest).length = 2 * rest.length + 1 + 1 := by
                simp only [List.length_cons]; omega
              have hd1 : twins.drop twin = x :: twins.drop (twin + 1) :=
                drop_eq_cons_of_get? twins twin x hx
              have hd2 : twins.drop (twin + 1) = y :: twins.drop (twin + 2) :=
                drop_eq_cons_of_get? twins (twin + 1) y hy
              rw [e2, hd1, List.take_succ_cons, hd2, List.take_succ_cons]
              have hj : (partsJoin parts2).Perm (y :: x :: partsJoin parts) :=
                j2.trans (j1.cons y)
              have step1 : (partsJoin out.1).Perm
                  ((y :: x :: partsJoin parts) ++
                    (twins.drop (twin + 2)).take (2 * rest.length)) :=
                ih3.trans (hj.append_right _)
              have step2 : ((y :: x :: partsJoin parts) ++
                    (twins.drop (twin + 2)).take (2 * rest.length)) =
                  y :: x :: (partsJoin parts ++
                    (twins.drop (twin + 2)).take (2 * rest.length)) := by simp
              rw [step2] at step1
              refine step1.trans ?_
              refine (List.Perm.swap x y _).trans ?_
              exact ((List.perm_middle.symm.cons x).trans List.perm_middle.symm)
            · intro q
              rw [ih4 q, len2 q, len1 q, countPlaced_cons]
              rw [ite_eq_comm_nat a q, ite_eq_comm_nat b q]
              omega
            · exact ih5

theorem fillSlotAux_spec (szp p : Nat) (hszp : szp ≤ 255) :
    ∀ (rest : List NodeID) (parts : List (Option NodeSet)) (node : Nat)
      (out : List (Option NodeSet) × Nat) (seen : List NodeID),
    fillSlotAux szp parts p rest node = some out →
    slotLen parts p ≤ szp →
    (∀ x ∈ partsJoin parts, x ∈ seen) →
    rest.Nodup → (∀ x ∈ rest, x ∉ seen) →
    out.2 = node + (szp - slotLen parts p) ∧
    out.1.length = parts.length ∧
    (partsJoin out.1).Perm
      (partsJoin parts ++ rest.take (szp - slotLen parts p)) ∧
    slotLen out.1 p = szp ∧
    (∀ q, q ≠ p → slotLen out.1 q = slotLen parts q) ∧
    (∀ x ∈ partsJoin out.1, x ∈ seen ++ rest.take (szp - slotLen parts p)) := by
  intro rest
  induction rest with
  | nil =>
    intro parts node out seen h hle hsub hnd hfresh
    rw [fillSlotAux] at h
    by_cases hc : u8sub szp (slotLen parts p) = 0
    · rw [if_pos hc] at h
      obtain rfl : (parts, node) = out := Option.some_inj.mp h
      have hz : szp - slotLen parts p = 0 := by
        rw [u8sub_eq szp (slotLen parts p) hle hszp] at hc
        omega
      refine ⟨by omega, rfl, by simp [hz], by show slotLen parts p = szp; omega,
        fun q _ => rfl, ?_⟩
      intro x hx
      simp [hz]
      exact hsub x hx
    · rw [if_neg hc] at h
      exact Option.noConfusion h
  | cons x rest1 ih =>
    intro parts node out seen h hle hsub hnd hfresh
    rw [fillSlotAux] at h
    by_cases hc : u8sub szp (slotLen parts p) = 0
    · rw [if_pos hc] at h
      obtain rfl : (parts, node) = out := Option.some_inj.mp h
      have hz : szp - slotLen parts p = 0 := by
        rw [u8sub_eq szp (slotLen parts p) hle hszp] at hc
        omega
      refine ⟨by omega, rfl, by simp [hz], by show slotLen parts p = szp; omega,
        fun q _ => rfl, ?_⟩
      intro z hzmem
      simp [hz]
      exact hsub z hzmem
    · rw [if_neg hc] at h
      have hlt : slotLen parts p < szp := by
        rcases Nat.lt_or_ge (slotLen parts p) szp with hl | hg
        · exact hl
        · exfalso
          have : slotLen parts p = szp := by omega
          rw [this] at hc
          exact hc (by unfold u8sub; omega)
      cases haddx : addToSlot parts p x with
      | none => simp only [haddx] at h; exact Option.noConfusion h
      | some parts1 =>
        simp only [haddx] at h
        have hxnotin : x ∉ partsJoin parts := by
          intro hmem
          exact hfresh x (List.mem_cons_self x rest1) (hsub x hmem)
        have j1 := addToSlot_join parts p x parts1 haddx hxnotin
        have len1 := addToSlot_len parts p x parts1 haddx hxnotin
        have hlen1p : slotLen parts1 p = slotLen parts p + 1 := by
          rw [len1 p, if_pos rfl]
        have hxnotrest : x ∉ rest1 := (List.nodup_cons.mp hnd).1
        have hsub1 : ∀ z ∈ partsJoin parts1, z ∈ seen ++ [x] := by
          intro z hz
          rcases List.mem_cons.mp (j1.mem_iff.mp hz) with rfl | hz2
          · simp
          · exact List.mem_append_left _ (hsub z hz2)
        have hfresh1 : ∀ z ∈ rest1, z ∉ seen ++ [x] := by
          intro z hz hmem
          rcases List.mem_append.mp hmem with hm | hm
          · exact hfresh z (List.mem_cons_of_mem x hz) hm
          · rw [List.mem_singleton] at hm
            subst hm
            exact hxnotrest hz
        obtain ⟨ih1, ih2, ih3, ih4, ih5, ih6⟩ := ih parts1 (node + 1) out
          (seen ++ [x]) h (by omega) hsub1 (List.nodup_cons.mp hnd).2 hfresh1
        have hneed : szp - slotLen parts p = (szp - slotLen parts1 p) + 1 := by
          omega
        have htake : (x :: rest1).take (szp - slotLen parts p) =
            x :: rest1.take (szp - slotLen parts1 p) := by
          rw [hneed, List.take_succ_cons]
        have hlen0 := addToSlot_length parts p x parts1 haddx
        refine ⟨by omega, by omega, ?_, ih4, ?_, ?_⟩
        · rw [htake]
          refine ih3.trans ?_
          have step : (partsJoin parts1).Perm (x :: partsJoin parts) := j1
          refine (step.append_right _).trans ?_
          have e : x :: partsJoin parts ++ rest1.take (szp - slotLen parts1 p) =
              x :: (partsJoin parts ++ rest1.take (szp - slotLen parts1 p)) := by
            simp
          rw [e]
          exact List.perm_middle.symm
        · intro q hq
          rw [ih5 q hq, len1 q, if_neg hq]
          omega

        · intro z hz
          have := ih6 z hz
          rw [htake]
          have e : seen ++ [x] ++ rest1.take (szp - slotLen parts1 p) =
              seen ++ (x :: rest1.take (szp - slotLen parts1 p)) := by simp
          rw [e] at this
          exact this

theorem needSum_congr : ∀ (szs : List Nat) (parts1 parts2 : List (Option NodeSet))
    (p : Nat), (∀ j, slotLen parts1 (p + j) = slotLen parts2 (p + j)) →
    needSum szs parts1 p = needSum szs parts2 p := by
  intro szs
  induction szs with
  | nil => intro parts1 parts2 p h; rfl
  | cons s rest ih =>
    intro parts1 parts2 p h
    unfold needSum
    have h0 := h 0
    rw [Nat.add_zero] at h0
    rw [h0, ih parts1 parts2 (p + 1) (fun j => by
      have := h (1 + j)
      rwa [show p + (1 + j) = p + 1 + j by omega] at this)]

theorem fillAllAux_spec : ∀ (szs : List Nat) (p : Nat)
    (parts : List (Option NodeSet)) (nodes : List NodeID) (node : Nat)
    (out : List (Option NodeSet) × Nat) (seen : List NodeID),
    fillAllAux szs p parts nodes node = some out →
    (∀ s ∈ szs, s ≤ 255) →
    (∀ j, j < szs.length → slotLen parts (p + j) ≤ szs.getD j 0) →
    (∀ x ∈ partsJoin parts, x ∈ seen) →
    (nodes.drop node).Nodup → (∀ x ∈ nodes.drop node, x ∉ seen) →
    out.2 = node + needSum szs parts p ∧
    out.1.length = parts.length ∧
    (partsJoin out.1).Perm
      (partsJoin parts ++ (nodes.drop node).take (needSum szs parts p)) ∧
    (∀ j, j < szs.length → slotLen out.1 (p + j) = szs.getD j 0) ∧
    (∀ q, q < p ∨ p + szs.length ≤ q → slotLen out.1 q = slotLen parts q) ∧
    (∀ x ∈ partsJoin out.1,
      x ∈ seen ++ (nodes.drop node).take (needSum szs parts p)) := by
  intro szs
  induction szs with
  | nil =>
    intro p parts nodes node out seen h hb hcap hsub hnd hfresh
    simp only [fillAllAux] at h
    obtain rfl : (parts, node) = out := Option.some_inj.mp h
    refine ⟨by show node = node + needSum [] parts p; simp [needSum],
      rfl, ?_, ?_, fun q _ => rfl, ?_⟩
    · show (partsJoin parts).Perm
        (partsJoin parts ++ (nodes.drop node).take (needSum [] parts p))
      simp [needSum]
    · intro j hj
      exact absurd hj (by simp)
    · intro x hx
      show x ∈ seen ++ (nodes.drop node).take (needSum [] parts p)
      simp only [needSum, List.take_zero, List.append_nil]
      exact hsub x hx
  | cons s rest ih =>
    intro p parts nodes node out seen h hb hcap hsub hnd hfresh
    simp only [fillAllAux] at h
    cases hfs : fillSlot s parts p nodes node with
    | none => simp only [hfs] at h; exact Option.noConfusion h
    | some pr =>
      simp only [hfs] at h
      obtain ⟨parts1, node1⟩ := pr
      have hs255 : s ≤ 255 := hb s (List.mem_cons_self s rest)
      have hcap0 : slotLen parts p ≤ s := by
        have := hcap 0 (by simp)
        simpa using this
      unfold fillSlot at hfs
      obtain ⟨f1, f2, f3, f4, f5, f6⟩ := fillSlotAux_spec s p hs255
        (nodes.drop node) parts node (parts1, node1) seen hfs hcap0 hsub hnd hfresh
      have f1h : node1 = node + (s - slotLen parts p) := f1
      have f2h : parts1.length = parts.length := f2
      have f3h : (partsJoin parts1).Perm
          (partsJoin parts ++ (nodes.drop node).take (s - slotLen parts p)) := f3
      have f4h : slotLen parts1 p = s := f4
      have f5h : ∀ q, q ≠ p → slotLen parts1 q = slotLen parts q := f5
      have f6h : ∀ x ∈ partsJoin parts1,
          x ∈ seen ++ (nodes.drop node).take (s - slotLen parts p) := f6
      have hdrop1 : nodes.drop node1 = (nodes.drop node).drop (s - slotLen parts p) := by
        rw [f1h, List.drop_drop, Nat.add_comm]
      have hnd1 : (nodes.drop node1).Nodup := by
        rw [hdrop1]
        exact List.Nodup.sublist (List.drop_sublist _ _) hnd
      have hdisj : List.Disjoint ((nodes.drop node).take (s - slotLen parts p))
          ((nodes.drop node).drop (s - slotLen parts p)) := by
        have hsplit : (nodes.drop node).take (s - slotLen parts p) ++
            (nodes.drop node).drop (s - slotLen parts p) = nodes.drop node :=
          List.take_append_drop _ _
        have hnd2 := hnd
        rw [← hsplit] at hnd2
        exact (List.nodup_append.mp hnd2).2.2
      have hfresh1 : ∀ x ∈ nodes.drop node1,
          x ∉ seen ++ (nodes.drop node).take (s - slotLen parts p) := by
        intro x hx hmem
        rw [hdrop1] at hx
        rcases List.mem_append.mp hmem with hm | hm
        · exact hfresh x (List.drop_subset _ _ hx) hm
        · exact hdisj hm hx
      have hcap1 : ∀ j, j < rest.length →
          slotLen parts1 (p + 1 + j) ≤ rest.getD j 0 := by
        intro j hj
        rw [f5h (p + 1 + j) (by omega)]
        have := hcap (j + 1) (by simp; omega)
        rw [show p + (j + 1) = p + 1 + j by omega] at this
        simpa using this
      obtain ⟨ih1, ih2, ih3, ih4, ih5, ih6⟩ := ih (p + 1) parts1 nodes node1
        out (seen ++ (nodes.drop node).take (s - slotLen parts p)) h
        (fun z hz => hb z (List.mem_cons_of_mem s hz)) hcap1 f6h hnd1 hfresh1
      have hnscong : needSum rest parts1 (p + 1) = needSum rest parts (p + 1) :=
        needSum_congr rest parts1 parts (p + 1) (fun j => f5h (p + 1 + j) (by omega))
      have hneedcons : needSum (s :: rest) parts p =
          (s - slotLen parts p) + needSum rest parts (p + 1) := rfl
      have htk : (nodes.drop node).take ((s - slotLen parts p) +
          needSum rest parts (p + 1)) =
          (nodes.drop node).take (s - slotLen parts p) ++
          ((nodes.drop node).drop (s - slotLen parts p)).take
            (needSum rest parts (p + 1)) := List.take_add _ _ _
      refine ⟨?_, by omega, ?_, ?_, ?_, ?_⟩
      · rw [hneedcons]
        rw [hnscong] at ih1
        omega
      · rw [hneedcons, htk]
        rw [hnscong, hdrop1] at ih3
        refine ih3.trans ?_
        refine (f3h.append_right _).trans ?_
        rw [List.append_assoc]
      · intro j hj
        cases j with
        | zero =>
          have hg : slotLen out.1 p = s := by
            rw [ih5 p (Or.inl (by omega)), f4h]
          simpa using hg
        | succ j1 =>
          have hh := ih4 j1 (by simpa using hj)
          rw [show p + 1 + j1 = p + (j1 + 1) by omega] at hh
          simpa using hh
      · intro q hq
        simp only [List.length_cons] at hq
        by_cases hqp : q = p
        · subst hqp
          omega
        · rw [ih5 q (by omega), f5h q hqp]
      · intro x hx
        have hmem := ih6 x hx
        rw [hneedcons, htk]
        rw [hnscong, hdrop1] at hmem
        rw [← List.append_assoc]
        exact hmem

theorem getD_get? (l : List Nat) (n d : Nat) : l.getD n d = (l.get? n).getD d := by
  simp [List.getD_eq_getElem?_getD, List.get?_eq_getElem?]

theorem getD_set_self (l : List Nat) (i v : Nat) (h : i < l.length) :
    (l.set i v).getD i 0 = v := by
  rw [getD_get?, List.get?_set_eq_of_lt _ h]
  rfl

theorem getD_set_other (l : List Nat) (i v q : Nat) (h : i ≠ q) :
    (l.set i v).getD q 0 = l.getD q 0 := by
  rw [getD_get?, List.get?_set_ne _ _ h, ← getD_get?]

theorem list_getD_sum : ∀ (l : List Nat),
    (∑ q in Finset.range l.length, l.getD q 0) = l.sum := by
  intro l
  induction l with
  | nil => simp
  | cons a l ih =>
    rw [List.length_cons, Finset.sum_range_succ' _ l.length]
    simp only [List.getD_cons_succ, List.getD_cons_zero, List.sum_cons, ih]
    omega

theorem slotLen_sum : ∀ (parts : List (Option NodeSet)),
    (∑ q in Finset.range parts.length, slotLen parts q) =
      (partsJoin parts).length := by
  intro parts
  induction parts with
  | nil => simp [partsJoin]
  | cons o rest ih =>
    rw [List.length_cons, Finset.sum_range_succ' _ rest.length]
    simp only [slotLen_cons_succ, slotLen_cons_zero, ih, partsJoin_cons,
      List.length_append]
    omega

theorem countPlaced_nil (q : Nat) : countPlaced [] q = 0 := rfl

theorem countPlaced_sum : ∀ (ta : List twinAssignment) (K : Nat),
    (∀ ab ∈ ta, ab.1 < K ∧ ab.2 < K) →
    (∑ q in Finset.range K, countPlaced ta q) = 2 * ta.length := by
  intro ta
  induction ta with
  | nil => intro K h; simp [countPlaced_nil]
  | cons ab rest ih =>
    intro K h
    obtain ⟨a, b⟩ := ab
    have hcong : (∑ q in Finset.range K, countPlaced ((a, b) :: rest) q) =
        ∑ q in Finset.range K,
          ((if a = q then 1 else 0) + (if b = q then 1 else 0) +
            countPlaced rest q) := by
      refine Finset.sum_congr rfl ?_
      intro q _
      rw [countPlaced_cons]
    rw [hcong, Finset.sum_add_distrib, Finset.sum_add_distrib]
    rw [Finset.sum_ite_eq (Finset.range K) a (fun _ => (1 : Nat))]
    rw [Finset.sum_ite_eq (Finset.range K) b (fun _ => (1 : Nat))]
    have ha : a ∈ Finset.range K := by
      rw [Finset.mem_range]
      exact (h (a, b) (List.mem_cons_self _ _)).1
    have hb : b ∈ Finset.range K := by
      rw [Finset.mem_range]
      exact (h (a, b) (List.mem_cons_self _ _)).2
    rw [if_pos ha, if_pos hb,
      ih K (fun ab hab => h ab (List.mem_cons_of_mem _ hab))]
    simp only [List.length_cons]
    omega

theorem countPlaced_pos_of_mem : ∀ (ta : List twinAssignment)
    (ab : twinAssignment), ab ∈ ta →
    1 ≤ countPlaced ta ab.1 ∧ 1 ≤ countPlaced ta ab.2 := by
  intro ta
  induction ta with
  | nil => intro ab h; exact absurd h (List.not_mem_nil ab)
  | cons hd rest ih =>
    intro ab hmem
    obtain ⟨a, b⟩ := hd
    rcases List.mem_cons.mp hmem with rfl | hmem2
    · constructor
      · rw [countPlaced_cons]
        dsimp only
        rw [if_pos (rfl : a = a)]
        omega
      · rw [countPlaced_cons]
        dsimp only
        rw [if_pos (rfl : b = b)]
        omega
    · obtain ⟨h1, h2⟩ := ih ab hmem2
      constructor
      · rw [countPlaced_cons]; omega
      · rw [countPlaced_cons]; omega

theorem validGo_lt : ∀ (ta : List twinAssignment) (ps : List Nat),
    validGo ta ps = true → ∀ ab ∈ ta, ab.1 < ps.length ∧ ab.2 < ps.length := by
  intro ta
  induction ta with
  | nil => intro ps h ab hmem; exact absurd hmem (List.not_mem_nil ab)
  | cons hd rest ih =>
    intro ps h ab hmem
    obtain ⟨a, b⟩ := hd
    simp only [validGo] at h
    cases hva : ps.get? a with
    | none => simp only [hva] at h; exact Bool.noConfusion h
    | some va' =>
      simp only [hva] at h
      cases va' with
      | zero => simp only [] at h; exact Bool.noConfusion h
      | succ va =>
        simp only [] at h
        cases hvb : (ps.set a va).get? b with
        | none => simp only [hvb] at h; exact Bool.noConfusion h
        | some vb' =>
          simp only [hvb] at h
          cases vb' with
          | zero => simp only [] at h; exact Bool.noConfusion h
          | succ vb =>
            simp only [] at h
            have halt : a < ps.length := List.get?_eq_some.mp hva |>.choose
            have hblt : b < ps.length := by
              have := List.get?_eq_some.mp hvb |>.choose
              rwa [List.length_set] at this
            rcases List.mem_cons.mp hmem with rfl | hmem2
            · exact ⟨halt, hblt⟩
            · have := ih ((ps.set a va).set b vb) h ab hmem2
              rwa [List.length_set, List.length_set] at this

theorem validGo_le : ∀ (ta : List twinAssignment) (ps : List Nat),
    validGo ta ps = true → ∀ q, countPlaced ta q ≤ ps.getD q 0 := by
  intro ta
  induction ta with
  | nil => intro ps h q; rw [countPlaced_nil]; omega
  | cons hd rest ih =>
    intro ps h q
    obtain ⟨a, b⟩ := hd
    simp only [validGo] at h
    cases hva : ps.get? a with
    | none => simp only [hva] at h; exact Bool.noConfusion h
    | some va' =>
      simp only [hva] at h
      cases va' with
      | zero => simp only [] at h; exact Bool.noConfusion h
      | succ va =>
        simp only [] at h
        cases hvb : (ps.set a va).get? b with
        | none => simp only [hvb] at h; exact Bool.noConfusion h
        | some vb' =>
          simp only [hvb] at h
          cases vb' with
          | zero => simp only [] at h; exact Bool.noConfusion h
          | succ vb =>
            simp only [] at h
            have halt : a < ps.length := List.get?_eq_some.mp hva |>.choose
            have hblt : b < ps.length := by
              have := List.get?_eq_some.mp hvb |>.choose
              rwa [List.length_set] at this
            have hga : ps.getD a 0 = va + 1 := by
              rw [getD_get?, hva]; rfl
            have hg1b : (ps.set a va).getD b 0 = vb + 1 := by
              rw [getD_get?, hvb]; rfl
            have ihq := ih ((ps.set a va).set b vb) h q
            rw [countPlaced_cons]
            dsimp only
            by_cases hqa : a = q
            · subst hqa
              by_cases hqb : b = a
              · subst hqb
                have hva2 : (ps.set b va).getD b 0 = va := getD_set_self ps b va halt
                have hvavb : va = vb + 1 := by rw [hva2] at hg1b; exact hg1b
                have hfin : ((ps.set b va).set b vb).getD b 0 = vb :=
                  getD_set_self _ b vb (by rwa [List.length_set])
                rw [hfin] at ihq
                rw [if_pos (rfl : b = b)]
                omega
              · have h2 : ((ps.set a va).set b vb).getD a 0 =
                    (ps.set a va).getD a 0 := getD_set_other _ b vb a hqb
                have h3 : (ps.set a va).getD a 0 = va := getD_set_self ps a va halt
                rw [h2, h3] at ihq
                rw [if_pos (rfl : a = a), if_neg hqb]
                omega
            · by_cases hqb : b = q
              · subst hqb
                have h2 : ((ps.set a va).set b vb).getD b 0 = vb :=
                  getD_set_self _ b vb (by rwa [List.length_set])
                rw [h2] at ihq
                have h3 : (ps.set a va).getD b 0 = ps.getD b 0 :=
                  getD_set_other ps a va b hqa
                rw [h3] at hg1b
                rw [if_neg hqa, if_pos (rfl : b = b)]
                omega
              · have h2 : ((ps.set a va).set b vb).getD q 0 =
                    (ps.set a va).getD q 0 := getD_set_other _ b vb q hqb
                have h3 : (ps.set a va).getD q 0 = ps.getD q 0 :=
                  getD_set_other ps a va q hqa
                rw [h2, h3] at ihq
                rw [if_neg hqa, if_neg hqb]
                omega

theorem initParts_length (sz : List Nat) : (initParts sz).length = sz.length := by
  simp [initParts]

theorem initParts_join : ∀ (sz : List Nat), partsJoin (initParts sz) = [] := by
  intro sz
  induction sz with
  | nil => rfl
  | cons s rest ih =>
    simp only [initParts, List.map_cons] at *
    rw [partsJoin_cons, ih]
    by_cases h : 0 < s
    · rw [if_pos h]; rfl
    · rw [if_neg h]; rfl

theorem initParts_len : ∀ (sz : List Nat) (q : Nat),
    slotLen (initParts sz) q = 0 := by
  intro sz
  induction sz with
  | nil => intro q; exact slotLen_nil q
  | cons s rest ih =>
    intro q
    simp only [initParts, List.map_cons]
    cases q with
    | zero =>
      rw [slotLen_cons_zero]
      by_cases h : 0 < s
      · rw [if_pos h]; rfl
      · rw [if_neg h]; rfl
    | succ q1 =>
      rw [slotLen_cons_succ]
      exact ih q1

theorem initParts_made : ∀ (sz : List Nat) (q : Nat), 0 < sz.getD q 0 →
    (initParts sz).get? q = some (some []) := by
  intro sz
  induction sz with
  | nil => intro q h; simp [List.getD] at h
  | cons s rest ih =>
    intro q h
    simp only [initParts, List.map_cons]
    cases q with
    | zero =>
      rw [List.getD_cons_zero] at h
      rw [List.get?_cons_zero, if_pos h]
    | succ q1 =>
      rw [List.getD_cons_succ] at h
      rw [List.get?_cons_succ]
      exact ih q1 h

theorem buildPartitions_spec (sz : List Nat) (ta : List twinAssignment)
    (twins nodes : List NodeID) (parts : List (Option NodeSet))
    (hbp : buildPartitions sz ta twins nodes = some parts)
    (hnd : (twins ++ nodes).Nodup)
    (hv : validGo ta sz = true)
    (hlen2 : twins.length = 2 * ta.length)
    (hsum : sz.sum = twins.length + nodes.length)
    (hbound : ∀ s ∈ sz, s ≤ 255) :
    parts.length = sz.length ∧
    (∀ j, j < sz.length → slotLen parts j = sz.getD j 0) ∧
    (partsJoin parts).Perm (twins ++ nodes) := by
  have htnd : twins.Nodup := (List.nodup_append.mp hnd).1
  have hnnd : nodes.Nodup := (List.nodup_append.mp hnd).2.1
  have hdisj : twins.Disjoint nodes := (List.nodup_append.mp hnd).2.2
  unfold buildPartitions at hbp
  cases hpt : placeTwins ta twins 0 (initParts sz) with
  | none => simp only [hpt] at hbp; exact Option.noConfusion hbp
  | some pr1 =>
    simp only [hpt] at hbp
    obtain ⟨parts1, tw1⟩ := pr1
    cases hfa : fillAllAux sz 0 parts1 nodes 0 with
    | none => simp only [hfa] at hbp; exact Option.noConfusion hbp
    | some pr2 =>
      simp only [hfa] at hbp
      obtain ⟨parts2, nd2⟩ := pr2
      obtain rfl : parts = parts2 := (Option.some_inj.mp hbp).symm
      obtain ⟨p1, p2, p3, p4, p5⟩ := placeTwins_spec twins htnd ta 0
        (initParts sz) (parts1, tw1) hpt
        (by rw [initParts_join]; intro x hx; exact absurd hx (List.not_mem_nil x))
      have p1h : tw1 = 2 * ta.length := by simpa using p1
      have p2h : parts1.length = sz.length := by
        have : parts1.length = (initParts sz).length := p2
        rwa [initParts_length] at this
      have p3h : (partsJoin parts1).Perm twins := by
        have h0 : (partsJoin parts1).Perm
            (partsJoin (initParts sz) ++
              (twins.drop 0).take (2 * ta.length)) := p3
        rw [initParts_join, List.drop_zero, ← hlen2, List.take_length] at h0
        simpa using h0
      have p4h : ∀ q, slotLen parts1 q = countPlaced ta q := by
        intro q
        have := p4 q
        rwa [initParts_len, Nat.zero_add] at this
      have hsubtw : ∀ x ∈ partsJoin parts1, x ∈ twins := by
        intro x hx
        exact p3h.subset hx
      have hfreshn : ∀ x ∈ nodes.drop 0, x ∉ twins := by
        rw [List.drop_zero]
        intro x hx hmem
        exact hdisj hmem hx
      have hcap : ∀ j, j < sz.length → slotLen parts1 (0 + j) ≤ sz.getD j 0 := by
        intro j hj
        rw [Nat.zero_add, p4h j]
        exact validGo_le ta sz hv j
      obtain ⟨g1, g2, g3, g4, g5, g6⟩ := fillAllAux_spec sz 0 parts1 nodes 0
        (parts, nd2) twins hfa hbound hcap hsubtw (by rw [List.drop_zero]; exact hnnd)
        hfreshn
      have g2h : parts.length = parts1.length := g2
      have g3h : (partsJoin parts).Perm
          (partsJoin parts1 ++ nodes.take (needSum sz parts1 0)) := by
        have := g3
        rwa [List.drop_zero] at this
      have g4h : ∀ j, j < sz.length → slotLen parts j = sz.getD j 0 := by
        intro j hj
        have := g4 j hj
        rwa [Nat.zero_add] at this
      refine ⟨by omega, g4h, ?_⟩
      have hjlen : (partsJoin parts).length = sz.sum := by
        have hsl : (∑ q in Finset.range parts.length, slotLen parts q) =
            (partsJoin parts).length := slotLen_sum parts
        have hplen : parts.length = sz.length := by omega
        have hcong : (∑ q in Finset.range parts.length, slotLen parts q) =
            ∑ q in Finset.range sz.length, sz.getD q 0 := by
          rw [hplen]
          refine Finset.sum_congr rfl ?_
          intro q hq
          exact g4h q (Finset.mem_range.mp hq)
        rw [hcong] at hsl
        rw [← hsl, list_getD_sum]
      have hj1len : (partsJoin parts1).length = twins.length := p3h.length_eq
      have htklen : (nodes.take (needSum sz parts1 0)).length =
          min (needSum sz parts1 0) nodes.length := List.length_take _ _
      have hlen3 : (partsJoin parts).length =
          (partsJoin parts1).length + (nodes.take (needSum sz parts1 0)).length := by
        rw [g3h.length_eq, List.length_append]
      have hmin : min (needSum sz parts1 0) nodes.length = nodes.length := by
        omega
      have hns : nodes.length ≤ needSum sz parts1 0 := by omega
      have htake : nodes.take (needSum sz parts1 0) = nodes :=
        List.take_of_length_le hns
      rw [htake] at g3h
      exact g3h.trans (p3h.append_right nodes)

theorem mem_cartesianProduct_replicate : ∀ (t : Nat) (l : List twinAssignment)
    (ta : List twinAssignment), ta ∈ cartesianProduct (List.replicate t l) →
    ta.length = t ∧ ∀ ab ∈ ta, ab ∈ l := by
  intro t
  induction t with
  | zero =>
    intro l ta h
    simp only [List.replicate, cartesianProduct, List.mem_singleton] at h
    subst h
    exact ⟨rfl, fun ab hab => absurd hab (List.not_mem_nil ab)⟩
  | succ t1 ih =>
    intro l ta h
    rw [List.replicate_succ] at h
    simp only [cartesianProduct] at h
    rw [List.mem_flatMap] at h
    obtain ⟨v, hv, hmem⟩ := h
    rw [List.mem_map] at hmem
    obtain ⟨p, hp, rfl⟩ := hmem
    obtain ⟨hl, hall⟩ := ih l p hp
    refine ⟨by simp [hl], ?_⟩
    intro ab hab
    rcases List.mem_cons.mp hab with rfl | hab2
    · exact hv
    · exact hall ab hab2

theorem buildRow_mem : ∀ (tas : List (List twinAssignment)) (sz : List Nat)
    (twins nodes : List NodeID) (row : List (List (Option NodeSet))),
    buildRow sz tas twins nodes = some row →
    ∀ parts ∈ row, ∃ ta ∈ tas, validGo ta sz = true ∧
      buildPartitions sz ta twins nodes = some parts := by
  intro tas
  induction tas with
  | nil =>
    intro sz twins nodes row h parts hparts
    simp only [buildRow] at h
    obtain rfl : ([] : List (List (Option NodeSet))) = row := Option.some_inj.mp h
    exact absurd hparts (List.not_mem_nil parts)
  | cons ta rest ih =>
    intro sz twins nodes row h parts hparts
    simp only [buildRow] at h
    by_cases hv : isValidTwinAssignment ta sz
    · rw [if_pos hv] at h
      cases hbp : buildPartitions sz ta twins nodes with
      | none => simp only [hbp] at h; exact Option.noConfusion h
      | some parts0 =>
        simp only [hbp] at h
        cases hbr : buildRow sz rest twins nodes with
        | none => simp only [hbr] at h; exact Option.noConfusion h
        | some r =>
          simp only [hbr] at h
          obtain rfl : parts0 :: r = row := Option.some_inj.mp h
          rcases List.mem_cons.mp hparts with rfl | hmem2
          · exact ⟨ta, List.mem_cons_self _ _, hv, hbp⟩
          · obtain ⟨ta1, hta1, hv1, hbp1⟩ := ih sz twins nodes r hbr parts hmem2
            exact ⟨ta1, List.mem_cons_of_mem _ hta1, hv1, hbp1⟩
    · rw [if_neg hv] at h
      obtain ⟨ta1, hta1, hv1, hbp1⟩ := ih sz twins nodes row h parts hparts
      exact ⟨ta1, List.mem_cons_of_mem _ hta1, hv1, hbp1⟩

theorem buildRows_mem : ∀ (sizes : List (List Nat))
    (tas : List (List twinAssignment)) (twins nodes : List NodeID)
    (rows : List (List (Option NodeSet))),
    buildRows sizes tas twins nodes = some rows →
    ∀ parts ∈ rows, ∃ sz ∈ sizes, ∃ ta ∈ tas, validGo ta sz = true ∧
      buildPartitions sz ta twins nodes = some parts := by
  intro sizes
  induction sizes with
  | nil =>
    intro tas twins nodes rows h parts hparts
    simp only [buildRows] at h
    obtain rfl : ([] : List (List (Option NodeSet))) = rows := Option.some_inj.mp h
    exact absurd hparts (List.not_mem_nil parts)
  | cons sz rest ih =>
    intro tas twins nodes rows h parts hparts
    simp only [buildRows] at h
    cases hbr : buildRow sz tas twins nodes with
    | none => simp only [hbr] at h; exact Option.noConfusion h
    | some row =>
      simp only [hbr] at h
      cases hbrs : buildRows rest tas twins nodes with
      | none => simp only [hbrs] at h; exact Option.noConfusion h
      | some r =>
        simp only [hbrs] at h
        obtain rfl : row ++ r = rows := Option.some_inj.mp h
        rcases List.mem_append.mp hparts with hm | hm
        · obtain ⟨ta, hta, hv, hbp⟩ := buildRow_mem tas sz twins nodes row hbr
            parts hm
          exact ⟨sz, List.mem_cons_self _ _, ta, hta, hv, hbp⟩
        · obtain ⟨sz1, hsz1, ta, hta, hv, hbp⟩ := ih tas twins nodes r hbrs
            parts hm
          exact ⟨sz1, List.mem_cons_of_mem _ hsz1, ta, hta, hv, hbp⟩

theorem gps_sizes_facts (n k : Nat) (h1 : 1 ≤ n) (h2 : 1 ≤ k) (h3 : n ≤ 255) :
    ∃ sizes, genPartitionSizes n k 1 = some sizes ∧
      ∀ v ∈ sizes, v.length = k ∧ v.sum = n ∧ ∀ x ∈ v, x ≤ 255 := by
  have hlen : (List.replicate k 0 : List Nat).length = k := List.length_replicate ..
  have hz : (List.replicate k 0 : List Nat).drop 0 =
      List.replicate ((List.replicate k 0 : List Nat).length - 0) 0 := by
    rw [List.drop_zero, hlen, Nat.sub_zero]
  refine ⟨genPartitionSizesRecursive 0 n 1 (List.replicate k 0), ?_, ?_⟩
  · unfold genPartitionSizes
    rw [if_neg (by omega)]
  · intro v hv
    unfold genPartitionSizesRecursive at hv
    have hmain := gps_main _ 0 n _ rfl (by rw [hlen]; omega) h1 h3 hz v hv
    obtain ⟨hl, -, -, hsum, -, hb⟩ := hmain
    rw [List.drop_zero] at hsum hb
    exact ⟨by rw [hl, hlen], hsum, fun x hx => by have := hb x hx; omega⟩

theorem roster_nodup (r t : Nat) (h2 : t ≤ r) :
    (twinsFrom 1 1 t ++ plainFrom (t + 1) (2 * t + 1) (r - t)).Nodup := by
  refine List.Nodup.of_map NodeID.NetworkID ?_
  rw [List.map_append, twinsFrom_map_net, plainFrom_map_net]
  have happ := List.range'_append 1 (2 * t) (r - t) 1
  simp only [Nat.one_mul] at happ
  have e2 : (1 : Nat) + 2 * t = 2 * t + 1 := by omega
  rw [e2] at happ
  rw [happ]
  exact List.nodup_range' _ _ 1 Nat.one_pos

theorem c7_core (r t k rd : Nat) (g : Generator)
    (h1 : 1 ≤ t) (h2 : t ≤ r) (h3 : r + t ≤ 255) (h4 : 1 ≤ k)
    (hg : NewGenerator r t k rd = some g) :
    g.allNodes.Nodup ∧
    g.indices.length = g.rounds ∧
    ∀ v ∈ g.leadersPartitions,
      ∃ sizes, genPartitionSizes (r + t) k 1 = some sizes ∧
      ∃ sz ∈ sizes,
        v.PartitionScenario.length = sz.length ∧
        (∀ j, j < sz.length → slotLen v.PartitionScenario j = sz.getD j 0) ∧
        (partsJoin v.PartitionScenario).Perm g.allNodes := by
  have hA := assignIDs_closed r 1 1 t
  have hmin : min t r = t := by omega
  rw [hmin] at hA
  have hfst : (assignIDs r 1 1 t).1 = twinsFrom 1 1 t := by rw [hA]
  have hsnd : (assignIDs r 1 1 t).2.1 = plainFrom (t + 1) (2 * t + 1) (r - t) := by
    rw [hA]
    dsimp only
    have e1 : (1 : Nat) + t = t + 1 := by omega
    have e2 : (1 : Nat) + 2 * t = 2 * t + 1 := by omega
    rw [e1, e2]
  have hlenT : (assignIDs r 1 1 t).1.length = 2 * t := by
    rw [hfst, twinsFrom_length]
  have hlenN : (assignIDs r 1 1 t).2.1.length = r - t := by
    rw [hsnd, plainFrom_length]
  unfold NewGenerator at hg
  simp only [] at hg
  cases hps : genPartitionScenarios (assignIDs r 1 1 t).1
      (assignIDs r 1 1 t).2.1 k 1 with
  | none => rw [hps] at hg; exact Option.noConfusion hg
  | some pss =>
    rw [hps] at hg
    obtain rfl := (Option.some_inj.mp hg).symm
    have hnodup : ((assignIDs r 1 1 t).1 ++ (assignIDs r 1 1 t).2.1).Nodup := by
      rw [hfst, hsnd]
      exact roster_nodup r t h2
    refine ⟨hnodup, by simp, ?_⟩
    intro v hv
    have hlp : v ∈ pss.flatMap (fun p => (assignIDs r 1 1 t).2.2.map
        (fun id => View.mk id p)) := hv
    rw [List.mem_flatMap] at hlp
    obtain ⟨p, hp, hmem⟩ := hlp
    rw [List.mem_map] at hmem
    obtain ⟨id, -, rfl⟩ := hmem
    unfold genPartitionScenarios at hps
    simp only [] at hps
    have hnn : ((assignIDs r 1 1 t).1.length +
        (assignIDs r 1 1 t).2.1.length) % 256 = r + t := by
      rw [hlenT, hlenN]
      omega
    rw [hnn] at hps
    have hguard : 0 < (assignIDs r 1 1 t).1.length / 2 := by
      rw [hlenT]; omega
    rw [if_pos hguard] at hps
    have hdiv : (assignIDs r 1 1 t).1.length / 2 = t := by
      rw [hlenT]; omega
    rw [hdiv] at hps
    obtain ⟨sizes, hsz, hszf⟩ := gps_sizes_facts (r + t) k (by omega) h4 h3
    rw [hsz] at hps
    obtain ⟨sz, hszmem, ta, hta, hvgo, hbp⟩ := buildRows_mem sizes
      (cartesianProduct (List.replicate t (generateTwinPartitionPairs k)))
      (assignIDs r 1 1 t).1 (assignIDs r 1 1 t).2.1 pss hps p hp
    obtain ⟨htalen, -⟩ := mem_cartesianProduct_replicate t
      (generateTwinPartitionPairs k) ta hta
    obtain ⟨hszlen, hszsum, hszb⟩ := hszf sz hszmem
    obtain ⟨b1, b2, b3⟩ := buildPartitions_spec sz ta (assignIDs r 1 1 t).1
      (assignIDs r 1 1 t).2.1 p hbp hnodup hvgo
      (by rw [hlenT, htalen]) (by rw [hszsum, hlenT, hlenN]; omega) hszb
    exact ⟨sizes, hsz, sz, hszmem, by simpa using b1, by simpa using b2,
      by simpa using b3⟩

theorem odoLoop_ok_len (base : Nat) : ∀ (i : Nat) (idx idx1 : List Nat),
    odoLoop base idx i = some (OdoResult.ok idx1) → idx1.length = idx.length := by
  intro i
  induction i with
  | zero =>
    intro idx idx1 h
    simp only [odoLoop] at h
    cases hv : idx.get? 0 with
    | none => simp only [hv] at h; exact Option.noConfusion h
    | some v =>
      simp only [hv] at h
      by_cases hlt : v + 1 < base
      · rw [if_pos hlt] at h
        obtain h2 := Option.some_inj.mp h
        obtain rfl : idx.set 0 (v + 1) = idx1 := by
          cases h2
          rfl
        exact List.length_set idx 0 (v + 1)
      · rw [if_neg hlt] at h
        obtain h2 := Option.some_inj.mp h
        exact OdoResult.noConfusion h2
  | succ i1 ih =>
    intro idx idx1 h
    simp only [odoLoop] at h
    cases hv : idx.get? (i1 + 1) with
    | none => simp only [hv] at h; exact Option.noConfusion h
    | some v =>
      simp only [hv] at h
      by_cases hlt : v + 1 < base
      · rw [if_pos hlt] at h
        obtain h2 := Option.some_inj.mp h
        obtain rfl : idx.set (i1 + 1) (v + 1) = idx1 := by
          cases h2
          rfl
        exact List.length_set idx (i1 + 1) (v + 1)
      · rw [if_neg hlt] at h
        have := ih (idx.set (i1 + 1) 0) idx1 h
        rwa [List.length_set] at this

theorem buildViewsAux_mem : ∀ (indices : List Nat) (i : Nat) (p : List View)
    (offsets : List Nat) (lp : List View) (out : List View),
    buildViewsAux p i indices offsets lp = some out →
    p.length = i + indices.length →
    ∀ w ∈ out, w ∈ lp ∨ w ∈ p.take i := by
  intro indices
  induction indices with
  | nil =>
    intro i p offsets lp out h hlen w hw
    simp only [buildViewsAux] at h
    obtain rfl : p = out := Option.some_inj.mp h
    right
    have hlen2 : p.length ≤ i := by simp at hlen; omega
    have : p.take i = p := List.take_of_length_le hlen2
    rwa [this]
  | cons ii rest ih =>
    intro i p offsets lp out h hlen w hw
    simp only [buildViewsAux] at h
    cases hoo : offsets.get? i with
    | none => simp only [hoo] at h; exact Option.noConfusion h
    | some off =>
      simp only [hoo] at h
      cases hvv : lp.get? (if lp.length ≤ ii + off then ii + off - lp.length
          else ii + off) with
      | none => simp only [hvv] at h; exact Option.noConfusion h
      | some v =>
        simp only [hvv] at h
        rw [List.length_cons] at hlen
        have hip : i < p.length := by omega
        rw [if_pos hip] at h
        have hlen1 : (p.set i v).length = (i + 1) + rest.length := by
          rw [List.length_set]; omega
        rcases ih (i + 1) (p.set i v) offsets lp out h hlen1 w hw with hl | hr
        · exact Or.inl hl
        · rw [take_set_succ p i v hip] at hr
          rcases List.mem_append.mp hr with hm | hm
          · exact Or.inr (mem_take_mono p i i (by omega) w hm)
          · rw [List.mem_singleton] at hm
            subst hm
            exact Or.inl (List.get?_mem hvv)

theorem nextScenario_emitted (g : Generator) (s : Scenario) (g1 : Generator)
    (h : NextScenario g = some (s, true, g1))
    (hlen : g.indices.length = g.rounds) :
    s.Nodes = g.allNodes ∧ (∀ w ∈ s.Views, w ∈ g.leadersPartitions) ∧
    g1.allNodes = g.allNodes ∧ g1.leadersPartitions = g.leadersPartitions ∧
    g1.offsets = g.offsets ∧
    g1.rounds = g.rounds ∧ g1.indices.length = g.rounds := by
  unfold NextScenario at h
  cases hbv : buildViews g.rounds g.indices g.offsets g.leadersPartitions with
  | none => simp only [hbv] at h; exact Option.noConfusion h
  | some p =>
    simp only [hbv] at h
    have hmem : ∀ w ∈ p, w ∈ g.leadersPartitions := by
      intro w hw
      unfold buildViews at hbv
      have := buildViewsAux_mem g.indices 0 (List.replicate g.rounds default)
        g.offsets g.leadersPartitions p hbv
        (by rw [List.length_replicate]; omega) w hw
      rcases this with hl | hr
      · exact hl
      · rw [List.take_zero] at hr
        exact absurd hr (List.not_mem_nil w)
    by_cases hr0 : g.rounds = 0
    · rw [if_pos hr0] at h
      obtain h2 := Option.some_inj.mp h
      cases h2
      exact ⟨rfl, hmem, rfl, rfl, rfl, rfl, hlen⟩
    · rw [if_neg hr0] at h
      cases hodo : odoLoop g.leadersPartitions.length g.indices (g.rounds - 1) with
      | none => simp only [hodo] at h; exact Option.noConfusion h
      | some res =>
        simp only [hodo] at h
        cases res with
        | exhausted =>
          obtain h2 := Option.some_inj.mp h
          exact absurd (congrArg (fun z => z.2.1) h2) (by simp)
        | ok idx1 =>
          obtain h2 := Option.some_inj.mp h
          cases h2
          refine ⟨rfl, hmem, rfl, rfl, rfl, rfl, ?_⟩
          show idx1.length = g.rounds
          rw [odoLoop_ok_len g.leadersPartitions.length (g.rounds - 1)
            g.indices idx1 hodo]
          exact hlen

theorem emitAll_mem : ∀ (fuel : Nat) (g : Generator),
    g.indices.length = g.rounds →
    ∀ s ∈ emitAll fuel g,
      s.Nodes = g.allNodes ∧ ∀ w ∈ s.Views, w ∈ g.leadersPartitions := by
  intro fuel
  induction fuel with
  | zero =>
    intro g hlen s hs
    exact absurd hs (List.not_mem_nil s)
  | succ f ih =>
    intro g hlen s hs
    rw [emitAll] at hs
    cases hns : NextScenario g with
    | none => simp only [hns] at hs; exact absurd hs (List.not_mem_nil s)
    | some res =>
      obtain ⟨s0, ok, g1⟩ := res
      cases ok with
      | false => simp only [hns] at hs; exact absurd hs (List.not_mem_nil s)
      | true =>
        simp only [hns] at hs
        obtain ⟨hn0, hv0, ha1, hl1, -, hr1, hi1⟩ :=
          nextScenario_emitted g s0 g1 hns hlen
        rcases List.mem_cons.mp hs with rfl | hs2
        · exact ⟨hn0, hv0⟩
        · have hlen1 : g1.indices.length = g1.rounds := by rw [hi1, hr1]
          obtain ⟨hn2, hv2⟩ := ih g1 hlen1 s hs2
          refine ⟨by rw [hn2, ha1], ?_⟩
          intro w hw
          have := hv2 w hw
          rwa [hl1] at this

/-- C7: for every successful construction in the legal range
(`1 ≤ numTwins ≤ replicas`, `partitions ≥ 1`, roster size within `uint8`),
every view in the leaders-partitions list carries a partition scenario that
was built from one of the enumerated size vectors `sz` with slot `j` holding
exactly `sz[j]` members; the slots are duplicate-free and pairwise disjoint,
and their members, read off slot by slot, are a permutation of the global
roster; consequently every scenario the iterator emits carries the full
roster and only views whose partitions satisfy that invariant. -/
theorem c7_partition_invariant (r t k rd : Nat) (g : Generator)
    (h1 : 1 ≤ t) (h2 : t ≤ r) (h3 : r + t ≤ 255) (h4 : 1 ≤ k)
    (hg : NewGenerator r t k rd = some g) :
    (∀ v ∈ g.leadersPartitions,
      (∃ sizes, genPartitionSizes (r + t) k 1 = some sizes ∧ ∃ sz ∈ sizes,
        v.PartitionScenario.length = sz.length ∧
        ∀ j, j < sz.length → slotLen v.PartitionScenario j = sz.getD j 0) ∧
      (∀ l ∈ v.PartitionScenario.map slotList, l.Nodup) ∧
      (v.PartitionScenario.map slotList).Pairwise List.Disjoint ∧
      (partsJoin v.PartitionScenario).Perm g.allNodes) ∧
    (∀ fuel s, s ∈ emitAll fuel g →
      s.Nodes = g.allNodes ∧ ∀ w ∈ s.Views, w ∈ g.leadersPartitions) := by
  obtain ⟨hnd, hil, hmain⟩ := c7_core r t k rd g h1 h2 h3 h4 hg
  constructor
  · intro v hv
    obtain ⟨sizes, hsz, sz, hszmem, hlen, hsl, hperm⟩ := hmain v hv
    have hjnd : (partsJoin v.PartitionScenario).Nodup := hperm.nodup_iff.mpr hnd
    have hflat := List.nodup_flatten.mp hjnd
    exact ⟨⟨sizes, hsz, sz, hszmem, hlen, hsl⟩, hflat.1, hflat.2, hperm⟩
  · intro fuel s hs
    exact emitAll_mem fuel g hil s hs

/-- C7, witness at replicas 1, numTwins 1, partitions 1, rounds 1. -/
theorem c7_witness :
    (∀ v ∈ ((NewGenerator 1 1 1 1).getD default).leadersPartitions,
      (∃ sizes, genPartitionSizes (1 + 1) 1 1 = some sizes ∧ ∃ sz ∈ sizes,
        v.PartitionScenario.length = sz.length ∧
        ∀ j, j < sz.length → slotLen v.PartitionScenario j = sz.getD j 0) ∧
      (∀ l ∈ v.PartitionScenario.map slotList, l.Nodup) ∧
      (v.PartitionScenario.map slotList).Pairwise List.Disjoint ∧
      (partsJoin v.PartitionScenario).Perm
        ((NewGenerator 1 1 1 1).getD default).allNodes) ∧
    (∀ fuel s, s ∈ emitAll fuel ((NewGenerator 1 1 1 1).getD default) →
      s.Nodes = ((NewGenerator 1 1 1 1).getD default).allNodes ∧
      ∀ w ∈ s.Views, w ∈ ((NewGenerator 1 1 1 1).getD default).leadersPartitions) :=
  c7_partition_invariant 1 1 1 1 ((NewGenerator 1 1 1 1).getD default)
    (by decide) (by decide) (by decide) (by decide) (by decide)

theorem u8sub_self (a : Nat) : u8sub a a = 0 := by
  unfold u8sub
  omega

theorem fillSlot_exact (szp : Nat) (parts : List (Option NodeSet)) (p : Nat)
    (nodes : List NodeID) (node : Nat) (h : slotLen parts p = szp) :
    fillSlot szp parts p nodes node = some (parts, node) := by
  unfold fillSlot
  cases hd : nodes.drop node with
  | nil =>
    rw [fillSlotAux, h, u8sub_self, if_pos rfl]
  | cons x rest1 =>
    rw [fillSlotAux, h, u8sub_self, if_pos rfl]

theorem fillAllAux_total_exact : ∀ (szs : List Nat) (p : Nat)
    (parts : List (Option NodeSet)) (nodes : List NodeID) (node : Nat),
    (∀ j, j < szs.length → slotLen parts (p + j) = szs.getD j 0) →
    fillAllAux szs p parts nodes node = some (parts, node) := by
  intro szs
  induction szs with
  | nil => intro p parts nodes node h; rfl
  | cons s rest ih =>
    intro p parts nodes node h
    have hsp : slotLen parts p = s := by
      have := h 0 (by simp)
      rwa [Nat.add_zero, List.getD_cons_zero] at this
    have hrest : ∀ j, j < rest.length → slotLen parts (p + 1 + j) = rest.getD j 0 := by
      intro j hj
      have := h (j + 1) (by simp; omega)
      rwa [show p + (j + 1) = p + 1 + j by omega, List.getD_cons_succ] at this
    show (match fillSlot s parts p nodes node with
      | none => none
      | some (parts1, node1) => fillAllAux rest (p + 1) parts1 nodes node1) =
      some (parts, node)
    rw [fillSlot_exact s parts p nodes node hsp]
    exact ih (p + 1) parts nodes node hrest

theorem placeTwins_total : ∀ (ta : List twinAssignment) (twins : List NodeID)
    (twin : Nat) (parts : List (Option NodeSet)),
    twin + 2 * ta.length ≤ twins.length →
    (∀ ab ∈ ta, (∃ s, parts.get? ab.1 = some (some s)) ∧
      (∃ s, parts.get? ab.2 = some (some s))) →
    ∃ out, placeTwins ta twins twin parts = some out := by
  intro ta
  induction ta with
  | nil => intro twins twin parts hlen hmade; exact ⟨(parts, twin), rfl⟩
  | cons ab rest ih =>
    intro twins twin parts hlen hmade
    obtain ⟨a, b⟩ := ab
    rw [List.length_cons] at hlen
    have htlt : twin < twins.length := by omega
    have ht1lt : twin + 1 < twins.length := by omega
    obtain ⟨x, hx⟩ : ∃ x, twins.get? twin = some x := by
      rw [List.get?_eq_getElem?]
      exact ⟨_, List.getElem?_eq_getElem htlt⟩
    obtain ⟨y, hy⟩ : ∃ y, twins.get? (twin + 1) = some y := by
      rw [List.get?_eq_getElem?]
      exact ⟨_, List.getElem?_eq_getElem ht1lt⟩
    have hmhd := hmade (a, b) (List.mem_cons_self _ _)
    obtain ⟨parts1, h1⟩ := addToSlot_total parts a x hmhd.1
    have hmb1 : ∃ s, parts1.get? b = some (some s) :=
      addToSlot_made parts a x parts1 h1 b hmhd.2
    obtain ⟨parts2, h2⟩ := addToSlot_total parts1 b y hmb1
    have hmade2 : ∀ ab1 ∈ rest, (∃ s, parts2.get? ab1.1 = some (some s)) ∧
        (∃ s, parts2.get? ab1.2 = some (some s)) := by
      intro ab1 hab1
      have hm := hmade ab1 (List.mem_cons_of_mem _ hab1)
      constructor
      · exact addToSlot_made parts1 b y parts2 h2 ab1.1
          (addToSlot_made parts a x parts1 h1 ab1.1 hm.1)
      · exact addToSlot_made parts1 b y parts2 h2 ab1.2
          (addToSlot_made parts a x parts1 h1 ab1.2 hm.2)
    obtain ⟨out, hout⟩ := ih twins (twin + 2) parts2 (by omega) hmade2
    refine ⟨out, ?_⟩
    simp only [placeTwins, hx, h1, hy, h2]
    exact hout

theorem validGo_exact (ta : List twinAssignment) (sz : List Nat)
    (hv : validGo ta sz = true) (hsum : sz.sum = 2 * ta.length) :
    ∀ q, q < sz.length → countPlaced ta q = sz.getD q 0 := by
  have hlt := validGo_lt ta sz hv
  have hle := validGo_le ta sz hv
  have hsum1 : (∑ q in Finset.range sz.length, countPlaced ta q) =
      2 * ta.length := countPlaced_sum ta sz.length hlt
  have hsum2 : (∑ q in Finset.range sz.length, sz.getD q 0) = sz.sum :=
    list_getD_sum sz
  intro q hq
  by_contra hne
  have hlt0 : countPlaced ta q < sz.getD q 0 :=
    Nat.lt_of_le_of_ne (hle q) hne
  have hstrict : (∑ i in Finset.range sz.length, countPlaced ta i) <
      ∑ i in Finset.range sz.length, sz.getD i 0 :=
    Finset.sum_lt_sum (fun i _ => hle i) ⟨q, Finset.mem_range.mpr hq, hlt0⟩
  omega

theorem buildPartitions_total (sz : List Nat) (ta : List twinAssignment)
    (twins nodes : List NodeID) (hnd : twins.Nodup)
    (hv : validGo ta sz = true)
    (hlen2 : twins.length = 2 * ta.length)
    (hsum : sz.sum = 2 * ta.length) :
    ∃ parts, buildPartitions sz ta twins nodes = some parts := by
  have hle := validGo_le ta sz hv
  have hmade : ∀ ab ∈ ta, (∃ s, (initParts sz).get? ab.1 = some (some s)) ∧
      (∃ s, (initParts sz).get? ab.2 = some (some s)) := by
    intro ab hab
    have hpos := countPlaced_pos_of_mem ta ab hab
    constructor
    · exact ⟨[], initParts_made sz ab.1 (by have := hle ab.1; omega)⟩
    · exact ⟨[], initParts_made sz ab.2 (by have := hle ab.2; omega)⟩
  obtain ⟨pr1, hpt⟩ := placeTwins_total ta twins 0 (initParts sz)
    (by omega) hmade
  obtain ⟨parts1, tw1⟩ := pr1
  obtain ⟨p1, p2, p3, p4, p5⟩ := placeTwins_spec twins hnd ta 0
    (initParts sz) (parts1, tw1) hpt
    (by rw [initParts_join]; intro x hx; exact absurd hx (List.not_mem_nil x))
  have p4h : ∀ q, slotLen parts1 q = countPlaced ta q := by
    intro q
    have := p4 q
    rwa [initParts_len, Nat.zero_add] at this
  have hexact : ∀ j, j < sz.length → slotLen parts1 (0 + j) = sz.getD j 0 := by
    intro j hj
    rw [Nat.zero_add, p4h j]
    exact validGo_exact ta sz hv hsum j hj
  refine ⟨parts1, ?_⟩
  unfold buildPartitions
  simp only [hpt]
  rw [fillAllAux_total_exact sz 0 parts1 nodes 0 hexact]

theorem buildRow_total (sz : List Nat) (twins nodes : List NodeID)
    (hnd : twins.Nodup) (hszsum : sz.sum = twins.length) :
    ∀ (tas : List (List twinAssignment)),
    (∀ ta ∈ tas, twins.length = 2 * ta.length) →
    ∃ row, buildRow sz tas twins nodes = some row := by
  intro tas
  induction tas with
  | nil => intro h; exact ⟨[], rfl⟩
  | cons ta rest ih =>
    intro h
    obtain ⟨row, hrow⟩ := ih (fun ta1 h1 => h ta1 (List.mem_cons_of_mem _ h1))
    have hta := h ta (List.mem_cons_self _ _)
    cases hv : isValidTwinAssignment ta sz with
    | false =>
      refine ⟨row, ?_⟩
      rw [buildRow, if_neg (by rw [hv]; exact Bool.false_ne_true)]
      exact hrow
    | true =>
      have hv' : validGo ta sz = true := hv
      obtain ⟨parts, hbp⟩ := buildPartitions_total sz ta twins nodes hnd hv'
        (by omega) (by omega)
      refine ⟨parts :: row, ?_⟩
      rw [buildRow, if_pos hv]
      simp only [hbp, hrow]

theorem buildRows_total (twins nodes : List NodeID) (hnd : twins.Nodup) :
    ∀ (sizes : List (List Nat)) (tas : List (List twinAssignment)),
    (∀ sz ∈ sizes, sz.sum = twins.length) →
    (∀ ta ∈ tas, twins.length = 2 * ta.length) →
    ∃ rows, buildRows sizes tas twins nodes = some rows := by
  intro sizes
  induction sizes with
  | nil => intro tas h1 h2; exact ⟨[], rfl⟩
  | cons sz rest ih =>
    intro tas h1 h2
    obtain ⟨row, hrow⟩ := buildRow_total sz twins nodes hnd
      (h1 sz (List.mem_cons_self _ _)) tas h2
    obtain ⟨rows, hrows⟩ := ih tas (fun sz1 hm => h1 sz1 (List.mem_cons_of_mem _ hm)) h2
    refine ⟨row ++ rows, ?_⟩
    rw [buildRows]
    simp only [hrow, hrows]

/-- C5: `NewGenerator` performs no input validation whatsoever.  For
`numTwins > replicas` (with the roster of `2 * replicas` twinned nodes
representable in `uint8` and `partitions ≥ 1`) construction does not fail:
it returns a generator whose roster consists of the `2 * replicas` twinned
nodes — every replica is twinned and the non-twinned list is empty. -/
theorem c5_no_validation_succeeds (r t k rd : Nat)
    (h1 : 1 ≤ r) (h2 : r < t) (h3 : 2 * r ≤ 255) (h4 : 1 ≤ k) :
    ∃ g, NewGenerator r t k rd = some g ∧
      g.allNodes = twinsRoster r ∧ g.allNodes.length = 2 * r := by
  have hA := assignIDs_closed r 1 1 t
  have hmin : min t r = r := by omega
  rw [hmin] at hA
  have hfst : (assignIDs r 1 1 t).1 = twinsFrom 1 1 r := by rw [hA]
  have hsnd : (assignIDs r 1 1 t).2.1 = [] := by
    rw [hA]
    dsimp only
    rw [show r - r = 0 by omega]
    rfl
  have hlenT : (assignIDs r 1 1 t).1.length = 2 * r := by
    rw [hfst, twinsFrom_length]
  have hnd : (assignIDs r 1 1 t).1.Nodup := by
    rw [hfst]
    have hfull := roster_nodup r r (Nat.le_refl r)
    rw [show r - r = 0 by omega] at hfull
    have hemp : plainFrom (r + 1) (2 * r + 1) 0 = [] := rfl
    rw [hemp, List.append_nil] at hfull
    exact hfull
  obtain ⟨sizes, hsz, hszf⟩ := gps_sizes_facts (2 * r) k (by omega) h4 h3
  have htas : ∀ ta ∈ cartesianProduct
      (List.replicate r (generateTwinPartitionPairs k)),
      (assignIDs r 1 1 t).1.length = 2 * ta.length := by
    intro ta hta
    obtain ⟨hl, -⟩ := mem_cartesianProduct_replicate r _ ta hta
    rw [hlenT, hl]
  obtain ⟨rows, hrows⟩ := buildRows_total (assignIDs r 1 1 t).1
    (assignIDs r 1 1 t).2.1 hnd sizes
    (cartesianProduct (List.replicate r (generateTwinPartitionPairs k)))
    (fun sz hm => by rw [hlenT]; exact (hszf sz hm).2.1) htas
  have hgps : genPartitionScenarios (assignIDs r 1 1 t).1
      (assignIDs r 1 1 t).2.1 k 1 = some rows := by
    unfold genPartitionScenarios
    simp only []
    have hnn : ((assignIDs r 1 1 t).1.length +
        (assignIDs r 1 1 t).2.1.length) % 256 = 2 * r := by
      rw [hlenT, hsnd]
      simp only [List.length_nil, Nat.add_zero]
      omega
    rw [hnn, hsz]
    have hguard : 0 < (assignIDs r 1 1 t).1.length / 2 := by rw [hlenT]; omega
    rw [if_pos hguard]
    have hdiv : (assignIDs r 1 1 t).1.length / 2 = r := by rw [hlenT]; omega
    rw [hdiv]
    exact hrows
  have hgen : NewGenerator r t k rd = some
      { allNodes := (assignIDs r 1 1 t).1 ++ (assignIDs r 1 1 t).2.1
        rounds := rd
        partitions := k
        indices := List.replicate rd 0
        offsets := List.replicate rd 0
        leadersPartitions := rows.flatMap (fun p =>
          (assignIDs r 1 1 t).2.2.map (fun id => View.mk id p)) } := by
    unfold NewGenerator
    simp only []
    rw [hgps]
  refine ⟨_, hgen, ?_, ?_⟩
  · show (assignIDs r 1 1 t).1 ++ (assignIDs r 1 1 t).2.1 = twinsRoster r
    rw [hfst, hsnd, List.append_nil]
    rfl
  · show ((assignIDs r 1 1 t).1 ++ (assignIDs r 1 1 t).2.1).length = 2 * r
    rw [List.length_append, hlenT, hsnd]
    simp

/-- C5, witness at replicas 1, numTwins 2, partitions 1, rounds 1. -/
theorem c5_witness :
    (1 ≤ 1 ∧ 1 < 2 ∧ 2 * 1 ≤ 255 ∧ 1 ≤ 1) ∧
    ∃ g, NewGenerator 1 2 1 1 = some g ∧
      g.allNodes = twinsRoster 1 ∧ g.allNodes.length = 2 * 1 :=
  ⟨⟨by decide, by decide, by decide, by decide⟩,
    c5_no_validation_succeeds 1 2 1 1 (by decide) (by decide) (by decide)
      (by decide)⟩
